import Mathlib

/-!
# link-checker: the task/link state store and the probe engine

A shallow embedding of `internal/storage/storage.go` and
`internal/checker/checker.go`.

Conventions of the embedding

* A Go `map[K]V` is a `GoMap K V`: either the nil map or an allocated list of
  entries with pairwise distinct keys kept by `entriesSet`.  Reading a nil map
  finds nothing, writing to it panics.
* A `*Task` is an `Option Task`; `none` is the nil pointer.  Every pointer held
  by the store is held under one id only, so the pointee is stored in place.
* A function that can panic returns `Except Panic _`.
* Go's `int` is an unbounded `Int`: from `NewStorage` the counter starts at 1
  and grows by one per created task, so wrap-around is out of reach of any
  such run.  A counter that `RestoreState` reads at the largest `int` wraps in
  the code and not in the embedding, and the decoder of the embedding has no
  range error.
* A Go string is a `GoString`, a list of bytes; `lit` gives the bytes of an
  ASCII literal of the source.
* `time.Now()` is an argument of the operation that calls it.
* The mutex makes every store operation atomic; an execution of the store is a
  sequence of operations.  `CheckLinks` is not embedded: it ranges over the link
  map of the task without the lock while the goroutines it has started write
  that map, and a sequence of operations does not describe that.
-/

namespace LinkChecker

/-! ## Go maps -/

/-- The run-time failures of the store operations. -/
inductive Panic where
  | nilMapWrite
  | nilDeref
  deriving DecidableEq, Repr

/-- Read `es[k]` in an entry list: the first entry with key `k`. -/
def entriesGet {κ ν : Type} [DecidableEq κ] : List (κ × ν) → κ → Option ν
  | [], _ => none
  | (k', v) :: rest, k => if k' = k then some v else entriesGet rest k

/-- Write `es[k] = v` in an entry list: overwrite the entry of `k` in place,
or add one at the end. -/
def entriesSet {κ ν : Type} [DecidableEq κ] : List (κ × ν) → κ → ν → List (κ × ν)
  | [], k, v => [(k, v)]
  | (k', v') :: rest, k, v =>
    if k' = k then (k, v) :: rest else (k', v') :: entriesSet rest k v

/-- A Go map value: nil, or allocated with its entries. -/
inductive GoMap (κ ν : Type) where
  | nil
  | alloc (entries : List (κ × ν))
  deriving DecidableEq, Repr

namespace GoMap

variable {κ ν : Type} [DecidableEq κ]

/-- The entries of a map (a nil map has none). -/
def entries : GoMap κ ν → List (κ × ν)
  | nil => []
  | alloc es => es

/-- The two-valued read `v, ok := m[k]`. -/
def get? (m : GoMap κ ν) (k : κ) : Option ν := entriesGet m.entries k

/-- The keys of a map, in storage order. -/
def keys (m : GoMap κ ν) : List κ := m.entries.map Prod.fst

/-- The assignment `m[k] = v`; it panics on a nil map. -/
def set : GoMap κ ν → κ → ν → Except Panic (GoMap κ ν)
  | nil, _, _ => .error Panic.nilMapWrite
  | alloc es, k, v => .ok (alloc (entriesSet es k v))

end GoMap

/-! ## Data model (storage.go, lines 12-41) -/

abbrev Time := Nat

/-- A Go string: a sequence of bytes, not necessarily valid UTF-8. -/
abbrev GoString := List UInt8

/-- The bytes of an ASCII string literal of the source. -/
def lit (s : String) : GoString := s.data.map (fun c => UInt8.ofNat c.toNat)

abbrev LinkStatus := GoString

def StatusAvailable : LinkStatus := lit "available"
def StatusUnavailable : LinkStatus := lit "unavailable"
def StatusProcessing : LinkStatus := lit "processing"
def StatusError : LinkStatus := lit "error"

structure Task where
  ID : Int
  Links : GoMap GoString LinkStatus
  CreatedAt : Time
  UpdatedAt : Time
  deriving DecidableEq, Repr

structure Storage where
  tasks : GoMap Int (Option Task)
  nextID : Int
  stateFile : GoString
  deriving DecidableEq, Repr

def NewStorage : Storage :=
  { tasks := GoMap.alloc [], nextID := 1, stateFile := lit "state/storage.json" }

/-! ## Store operations (storage.go, lines 95-157) -/

/-- The loop `for _, link := range links { task.Links[link] = StatusProcessing }`
on the freshly made (allocated, empty) map. -/
def fillLinks (links : List GoString) : List (GoString × LinkStatus) :=
  links.foldl (fun es link => entriesSet es link StatusProcessing) []

/-- `CreateTask(links)`: `t1` and `t2` are the two readings of `time.Now()`.
The detached `SaveState` goroutine only writes the state file. -/
def CreateTask (s : Storage) (links : List GoString) (t1 t2 : Time) :
    Except Panic (Task × Storage) :=
  let task : Task :=
    { ID := s.nextID, Links := GoMap.alloc (fillLinks links), CreatedAt := t1, UpdatedAt := t2 }
  match s.tasks.set task.ID (some task) with
  | .error p => .error p
  | .ok tasks => .ok (task, { s with tasks := tasks, nextID := s.nextID + 1 })

/-- `UpdateLinkStatus(taskID, link, status)`; `now` is the reading of `time.Now()`. -/
def UpdateLinkStatus (s : Storage) (taskID : Int) (link : GoString) (status : LinkStatus)
    (now : Time) : Except Panic Storage :=
  match s.tasks.get? taskID with
  | none => .ok s
  | some none => .error Panic.nilDeref
  | some (some task) =>
    match task.Links.get? link with
    | none => .ok s
    | some _ =>
      match task.Links.set link status with
      | .error p => .error p
      | .ok links =>
        match s.tasks.set taskID (some { task with Links := links, UpdatedAt := now }) with
        | .error p => .error p
        | .ok tasks => .ok { s with tasks := tasks }

/-- `GetTask(taskID)`: the stored pointer, nil when the id is absent. -/
def GetTask (s : Storage) (taskID : Int) : Option Task :=
  match s.tasks.get? taskID with
  | none => none
  | some p => p

/-- `GetTasksForReport(taskIDs)`: the stored pointers of the ids that exist. -/
def GetTasksForReport (s : Storage) (taskIDs : List Int) : List (Option Task) :=
  taskIDs.foldl
    (fun acc id => match s.tasks.get? id with
      | some p => acc ++ [p]
      | none => acc) []

/-- A call of the store in an execution. -/
inductive Op where
  | create (links : List GoString) (t1 t2 : Time)
  | update (taskID : Int) (link : GoString) (status : LinkStatus) (now : Time)
  deriving DecidableEq, Repr

/-- Run a sequence of calls; the second component collects, in call order, the
ids of the tasks that the `CreateTask` calls returned. -/
def exec : Storage → List Op → Except Panic (Storage × List Int)
  | s, [] => .ok (s, [])
  | s, Op.create links t1 t2 :: ops =>
    match CreateTask s links t1 t2 with
    | .error p => .error p
    | .ok (task, s1) =>
      match exec s1 ops with
      | .error p => .error p
      | .ok (s2, ids) => .ok (s2, task.ID :: ids)
  | s, Op.update taskID link status now :: ops =>
    match UpdateLinkStatus s taskID link status now with
    | .error p => .error p
    | .ok s1 => exec s1 ops

/-! ## Probe engine: `checkSingleLink` (checker.go, lines 56-91) -/

/-- The network as the checker sees it: whether `http.NewRequest("HEAD", url, nil)`
builds a request, and what `httpClient.Do` yields for it (`none` is a transport
error, `some c` a response with status code `c`). -/
structure HTTP where
  NewRequest : GoString → Bool
  Do : GoString → Option Int

/-- The outcome of one probe. -/
inductive ProbeOutcome where
  | requestError
  | transportError
  | response (code : Int)
  deriving DecidableEq, Repr

/-- The URL that `checkSingleLink` requests for a link. -/
def probeURL (link : GoString) : GoString :=
  if !((lit "http://").isPrefixOf link) && !((lit "https://").isPrefixOf link)
  then lit "https://" ++ link
  else link

/-- What the network does for a link. -/
def probeOutcome (net : HTTP) (link : GoString) : ProbeOutcome :=
  if net.NewRequest (probeURL link) then
    match net.Do (probeURL link) with
    | none => ProbeOutcome.transportError
    | some c => ProbeOutcome.response c
  else ProbeOutcome.requestError

/-- `checkSingleLink(link)` (checker.go, lines 56-91). -/
def checkSingleLink (net : HTTP) (link : GoString) : LinkStatus :=
  let url := if !((lit "http://").isPrefixOf link) && !((lit "https://").isPrefixOf link)
    then lit "https://" ++ link else link
  if !(net.NewRequest url) then StatusError
  else
    match net.Do url with
    | none => StatusUnavailable
    | some statusCode =>
      if statusCode ≥ 200 ∧ statusCode < 400 then StatusAvailable
      else StatusUnavailable

/-! ## The state file (storage.go, lines 43-93)

`encoding/json` is modelled on the document tree it writes and reads, for the
type `savedState`; the text layer (indentation, escapes) is the library's.  A
string of the tree is the byte content of the JSON string.  The encoder writes
a Go string coerced to valid UTF-8, and the decoder reads a JSON string the
same way: every byte that does not start a well-formed UTF-8 sequence becomes
U+FFFD. -/

/-- A JSON document.  An integer literal is `int`, any other number literal is
`number`. -/
inductive Json where
  | null
  | bool (b : Bool)
  | int (n : Int)
  | number (literal : GoString)
  | str (s : GoString)
  | arr (items : List Json)
  | obj (members : List (GoString × Json))

structure savedState where
  Tasks : GoMap Int (Option Task)
  NextID : Int
  deriving DecidableEq, Repr

/-- A UTF-8 continuation byte. -/
def isCont (b : UInt8) : Bool := 0x80 ≤ b && b ≤ 0xBF

/-- The length of the well-formed UTF-8 sequence at the head of a string, as
`utf8.DecodeRune` finds it; 0 when the first byte does not start one (the
decoder then reports `RuneError` with width 1). -/
def runeLen : GoString → Nat
  | [] => 0
  | b0 :: rest =>
    if b0 < 0x80 then 1
    else if b0 < 0xC2 then 0
    else if b0 < 0xE0 then
      match rest with
      | b1 :: _ => if isCont b1 then 2 else 0
      | _ => 0
    else if b0 < 0xF0 then
      match rest with
      | b1 :: b2 :: _ =>
        if (if b0 = 0xE0 then 0xA0 else 0x80) ≤ b1 ∧
            b1 ≤ (if b0 = 0xED then 0x9F else 0xBF) ∧ isCont b2 = true then 3
        else 0
      | _ => 0
    else if b0 < 0xF5 then
      match rest with
      | b1 :: b2 :: b3 :: _ =>
        if (if b0 = 0xF0 then 0x90 else 0x80) ≤ b1 ∧
            b1 ≤ (if b0 = 0xF4 then 0x8F else 0xBF) ∧
            isCont b2 = true ∧ isCont b3 = true then 4
        else 0
      | _ => 0
    else 0

/-- Copy a string with every byte that does not start a well-formed sequence
replaced by the encoding of U+FFFD; `k` bytes of the current sequence are still
to be copied. -/
def coerceFrom : Nat → GoString → GoString
  | _, [] => []
  | k + 1, b :: rest => b :: coerceFrom k rest
  | 0, b :: rest =>
    match runeLen (b :: rest) with
    | 0 => 0xEF :: 0xBF :: 0xBD :: coerceFrom 0 rest
    | n + 1 => b :: coerceFrom n rest

/-- The content of the JSON string that stands for a Go string: the string
coerced to valid UTF-8. -/
def coerceUTF8 (s : GoString) : GoString := coerceFrom 0 s

/-- A string that the coercion leaves as it is: valid UTF-8. -/
def validUTF8 (s : GoString) : Prop := coerceUTF8 s = s

instance (s : GoString) : Decidable (validUTF8 s) := by
  unfold validUTF8
  infer_instance

/-- The JSON form of `time.Time`: `format` is `Time.MarshalJSON` (it can fail),
`parse` is `Time.UnmarshalJSON` on the content of a JSON string. -/
structure TimeCodec where
  format : Time → Option GoString
  parse : GoString → Option Time

/-- The decimal digits of `n`, most significant first (`fuel` bounds the count). -/
def natDigits : Nat → Nat → GoString
  | 0, _ => []
  | fuel + 1, n =>
    if n < 10 then [UInt8.ofNat (48 + n)]
    else natDigits fuel (n / 10) ++ [UInt8.ofNat (48 + n % 10)]

/-- The call `strconv.FormatInt(n, 10)`, which writes the key of a `map[int]`. -/
def formatInt : Int → GoString
  | Int.ofNat n => natDigits (n + 1) n
  | Int.negSucc n => 45 :: natDigits (n + 2) (n + 1)

/-- The value of a decimal digit. -/
def digitVal (c : UInt8) : Option Nat :=
  if 48 ≤ c.toNat ∧ c.toNat ≤ 57 then some (c.toNat - 48) else none

/-- Read decimal digits onto the accumulator `acc`. -/
def parseDigits : GoString → Nat → Option Nat
  | [], acc => some acc
  | c :: cs, acc =>
    match digitVal c with
    | none => none
    | some d => parseDigits cs (acc * 10 + d)

/-- A non-empty run of decimal digits. -/
def parseNat : GoString → Option Nat
  | [] => none
  | c :: cs => parseDigits (c :: cs) 0

/-- The call `strconv.ParseInt(s, 10, 64)`, which reads the key of a `map[int]`:
an optional sign and decimal digits.  With `int` unbounded there is no range
error. -/
def parseInt (s : GoString) : Option Int :=
  match s with
  | [] => none
  | c :: cs =>
    if c = 45 then (parseNat cs).map (fun n => - (n : Int))
    else if c = 43 then (parseNat cs).map (fun n => (n : Int))
    else (parseNat (c :: cs)).map (fun n => (n : Int))

/-- The order of `strings.Compare`: byte by byte. -/
def bytesLt : GoString → GoString → Bool
  | _, [] => false
  | [], _ :: _ => true
  | a :: as, b :: bs => if a < b then true else if b < a then false else bytesLt as bs

/-- Insert a member into a list of members sorted by key. -/
def insertByKey {α : Type} (m : GoString × α) : List (GoString × α) → List (GoString × α)
  | [] => [m]
  | m' :: rest =>
    if bytesLt m'.1 m.1 = true then m' :: insertByKey m rest else m :: m' :: rest

/-- The encoder takes the members of a map sorted by key. -/
def sortByKey {α : Type} : List (GoString × α) → List (GoString × α)
  | [] => []
  | m :: rest => insertByKey m (sortByKey rest)

/-- The members of a map as the encoder writes them: sorted by key, each key
written as a JSON string. -/
def writeMembers (ms : List (GoString × Json)) : List (GoString × Json) :=
  (sortByKey ms).map (fun m => (coerceUTF8 m.1, m.2))

/-- Encode a `map[string]LinkStatus`. -/
def marshalLinks : GoMap GoString LinkStatus → Json
  | GoMap.nil => Json.null
  | GoMap.alloc es =>
    Json.obj (writeMembers (es.map (fun e => (e.1, Json.str (coerceUTF8 e.2)))))

/-- Encode a `*Task`. -/
def marshalTask (codec : TimeCodec) : Option Task → Option Json
  | none => some Json.null
  | some t =>
    match codec.format t.CreatedAt, codec.format t.UpdatedAt with
    | some c, some u =>
      some (Json.obj [(lit "id", Json.int t.ID), (lit "links", marshalLinks t.Links),
        (lit "created_at", Json.str c), (lit "updated_at", Json.str u)])
    | _, _ => none

/-- Encode the entries of a `map[int]*Task`, key by key. -/
def marshalTaskEntries (codec : TimeCodec) :
    List (Int × Option Task) → Option (List (GoString × Json))
  | [] => some []
  | (id, p) :: rest =>
    match marshalTask codec p, marshalTaskEntries codec rest with
    | some j, some ms => some ((formatInt id, j) :: ms)
    | _, _ => none

/-- Encode a `map[int]*Task`. -/
def marshalTasks (codec : TimeCodec) : GoMap Int (Option Task) → Option Json
  | GoMap.nil => some Json.null
  | GoMap.alloc es =>
    match marshalTaskEntries codec es with
    | some ms => some (Json.obj (writeMembers ms))
    | none => none

/-- The call `json.MarshalIndent(state, "", "  ")`; `none` is an encoding error. -/
def marshalState (codec : TimeCodec) (st : savedState) : Option Json :=
  match marshalTasks codec st.Tasks with
  | some t => some (Json.obj [(lit "tasks", t), (lit "next_id", Json.int st.NextID)])
  | none => none

/-- The upper-case form of an ASCII letter, any other byte as it is. -/
def upperByte (b : UInt8) : UInt8 := if 97 ≤ b ∧ b ≤ 122 then b - 32 else b

/-- The folded form of a name under which the decoder looks up a struct field:
ASCII letters in upper case, U+017F (bytes C5 BF) as `S`, U+212A (bytes E2 84
AA) as `K`.  No other rune folds to an ASCII letter, so the other bytes stay;
`k` bytes of the current rune are skipped. -/
def foldFrom : Nat → GoString → GoString
  | _, [] => []
  | k + 1, _ :: rest => foldFrom k rest
  | 0, b :: rest =>
    if b = 0xC5 ∧ rest.take 1 = [0xBF] then 83 :: foldFrom 1 rest
    else if b = 0xE2 ∧ rest.take 2 = [0x84, 0xAA] then 75 :: foldFrom 2 rest
    else upperByte b :: foldFrom 0 rest

/-- Whether an object key selects the struct field tagged `name`: the key is
read as a JSON string and compared with the name under case folding. -/
def fieldIs (name key : GoString) : Bool :=
  decide (foldFrom 0 (coerceUTF8 key) = foldFrom 0 name)

/-- Decode into an `int` that holds `cur`. -/
def unmarshalInt (cur : Int) : Json → Option Int
  | Json.null => some cur
  | Json.int n => some n
  | _ => none

/-- Decode into a `LinkStatus` that holds `cur`. -/
def unmarshalStatus (cur : LinkStatus) : Json → Option LinkStatus
  | Json.null => some cur
  | Json.str s => some (coerceUTF8 s)
  | _ => none

/-- Decode into a `time.Time` that holds `cur`. -/
def unmarshalTime (codec : TimeCodec) (cur : Time) : Json → Option Time
  | Json.null => some cur
  | Json.str s => codec.parse s
  | _ => none

/-- Decode the members of an object into the entries of a `map[string]LinkStatus`:
each member is decoded into a fresh element and stored under its key. -/
def unmarshalLinkMembers :
    List (GoString × LinkStatus) → List (GoString × Json) →
      Option (List (GoString × LinkStatus))
  | acc, [] => some acc
  | acc, (k, v) :: rest =>
    match unmarshalStatus [] v with
    | none => none
    | some st => unmarshalLinkMembers (entriesSet acc (coerceUTF8 k) st) rest

/-- Decode into a `map[string]LinkStatus` that holds `cur`. -/
def unmarshalLinks (cur : GoMap GoString LinkStatus) :
    Json → Option (GoMap GoString LinkStatus)
  | Json.null => some GoMap.nil
  | Json.obj ms => (unmarshalLinkMembers cur.entries ms).map GoMap.alloc
  | _ => none

/-- Decode the members of an object into the fields of a `Task`. -/
def unmarshalTaskFields (codec : TimeCodec) : Task → List (GoString × Json) → Option Task
  | t, [] => some t
  | t, (k, v) :: rest =>
    if fieldIs (lit "id") k then
      match unmarshalInt t.ID v with
      | none => none
      | some n => unmarshalTaskFields codec { t with ID := n } rest
    else if fieldIs (lit "links") k then
      match unmarshalLinks t.Links v with
      | none => none
      | some m => unmarshalTaskFields codec { t with Links := m } rest
    else if fieldIs (lit "created_at") k then
      match unmarshalTime codec t.CreatedAt v with
      | none => none
      | some c => unmarshalTaskFields codec { t with CreatedAt := c } rest
    else if fieldIs (lit "updated_at") k then
      match unmarshalTime codec t.UpdatedAt v with
      | none => none
      | some u => unmarshalTaskFields codec { t with UpdatedAt := u } rest
    else unmarshalTaskFields codec t rest

/-- Decode into a fresh `*Task` element of the task map. -/
def unmarshalTask (codec : TimeCodec) : Json → Option (Option Task)
  | Json.null => some none
  | Json.obj ms =>
    (unmarshalTaskFields codec
      { ID := 0, Links := GoMap.nil, CreatedAt := 0, UpdatedAt := 0 } ms).map some
  | _ => none

/-- Decode the members of an object into the entries of a `map[int]*Task`. -/
def unmarshalTaskMembers (codec : TimeCodec) :
    List (Int × Option Task) → List (GoString × Json) → Option (List (Int × Option Task))
  | acc, [] => some acc
  | acc, (k, v) :: rest =>
    match parseInt (coerceUTF8 k), unmarshalTask codec v with
    | some id, some p => unmarshalTaskMembers codec (entriesSet acc id p) rest
    | _, _ => none

/-- Decode into a `map[int]*Task` that holds `cur`. -/
def unmarshalTasks (codec : TimeCodec) (cur : GoMap Int (Option Task)) :
    Json → Option (GoMap Int (Option Task))
  | Json.null => some GoMap.nil
  | Json.obj ms => (unmarshalTaskMembers codec cur.entries ms).map GoMap.alloc
  | _ => none

/-- Decode the members of an object into the fields of a `savedState`. -/
def unmarshalStateFields (codec : TimeCodec) :
    savedState → List (GoString × Json) → Option savedState
  | st, [] => some st
  | st, (k, v) :: rest =>
    if fieldIs (lit "tasks") k then
      match unmarshalTasks codec st.Tasks v with
      | none => none
      | some m => unmarshalStateFields codec { st with Tasks := m } rest
    else if fieldIs (lit "next_id") k then
      match unmarshalInt st.NextID v with
      | none => none
      | some n => unmarshalStateFields codec { st with NextID := n } rest
    else unmarshalStateFields codec st rest

/-- The call `json.Unmarshal(data, &state)` on `var state savedState`; `none`
is a decoding error. -/
def unmarshalState (codec : TimeCodec) : Json → Option savedState
  | Json.null => some { Tasks := GoMap.nil, NextID := 0 }
  | Json.obj ms => unmarshalStateFields codec { Tasks := GoMap.nil, NextID := 0 } ms
  | _ => none

/-- What the state file holds when it is read. -/
inductive FileState where
  | missing
  | unreadable
  | garbled
  | document (doc : Json)

/-- The errors that `SaveState` and `RestoreState` return. -/
inductive StoreError where
  | marshal
  | write
  | read
  | parse
  deriving DecidableEq, Repr

/-- `SaveState()`: the result is the store after the call, the state file after
the call and the returned error.  `writeFailure = some d` says that
`os.WriteFile` fails and leaves the file as `d`. -/
def SaveState (codec : TimeCodec) (s : Storage) (disk : FileState)
    (writeFailure : Option FileState) : Storage × FileState × Option StoreError :=
  let state : savedState := { Tasks := s.tasks, NextID := s.nextID }
  match marshalState codec state with
  | none => (s, disk, some StoreError.marshal)
  | some data =>
    match writeFailure with
    | some d => (s, d, some StoreError.write)
    | none => (s, FileState.document data, none)

/-- `RestoreState()`: the store after the call and the returned error. -/
def RestoreState (codec : TimeCodec) (s : Storage) (disk : FileState) :
    Storage × Option StoreError :=
  match disk with
  | FileState.missing => (s, none)
  | FileState.unreadable => (s, some StoreError.read)
  | FileState.garbled => (s, some StoreError.parse)
  | FileState.document data =>
    match unmarshalState codec data with
    | none => (s, some StoreError.parse)
    | some state => ({ s with tasks := state.Tasks, nextID := state.NextID }, none)

/-- A link status that ends the life of a probe. -/
def isTerminal (v : LinkStatus) : Prop :=
  v = StatusAvailable ∨ v = StatusUnavailable ∨ v = StatusError

instance (v : LinkStatus) : Decidable (isTerminal v) := by
  unfold isTerminal
  infer_instance

/-- The status that the store holds for a link of a task, if any. -/
def linkStatus (s : Storage) (taskID : Int) (link : GoString) : Option LinkStatus :=
  match s.tasks.get? taskID with
  | some (some task) => task.Links.get? link
  | _ => none

/-- The classification table of the design, on probe outcomes: a request that
cannot be built is `Error`, a transport failure is `Unavailable`, a response in
[200, 400) is `Available`, any other response is `Unavailable`. -/
def classifySpec : ProbeOutcome → LinkStatus
  | ProbeOutcome.requestError => StatusError
  | ProbeOutcome.transportError => StatusUnavailable
  | ProbeOutcome.response c => if 200 ≤ c ∧ c < 400 then StatusAvailable else StatusUnavailable

/-- The shape of a store that `NewStorage`, `CreateTask` and `UpdateLinkStatus`
build: the task map is allocated, its keys are distinct and below the counter,
and every key holds a task whose link keys are distinct. -/
def StoreInv (s : Storage) : Prop :=
  (∃ es, s.tasks = GoMap.alloc es) ∧ s.tasks.keys.Nodup ∧
  (∀ id, id ∈ s.tasks.keys → id < s.nextID) ∧
  (∀ id p, s.tasks.get? id = some p →
    ∃ t, p = some t ∧ (∃ ls, t.Links = GoMap.alloc ls) ∧ t.Links.keys.Nodup)

/-- Two task pointers that agree id for id, link for link and status for status. -/
def sameTask : Option Task → Option Task → Prop
  | none, none => True
  | some a, some b => a.ID = b.ID ∧ ∀ l, a.Links.get? l = b.Links.get? l
  | _, _ => False

/-- Two reads of a task map that agree: both find nothing, or both find the
same task in the sense of `sameTask`. -/
def sameSlot : Option (Option Task) → Option (Option Task) → Prop
  | none, none => True
  | some p, some q => sameTask p q
  | _, _ => False

/-- Two task maps that hold the same ids, and under each id the same task. -/
def sameTasks (m m' : GoMap Int (Option Task)) : Prop :=
  ∀ id, sameSlot (m.get? id) (m'.get? id)

/-- The successive writes `acc[k] = v` for the pairs of a list. -/
def foldSet {κ ν : Type} [DecidableEq κ] (acc : List (κ × ν)) (kvs : List (κ × ν)) :
    List (κ × ν) :=
  kvs.foldl (fun a kv => entriesSet a kv.1 kv.2) acc

/-! ## Sample values -/

/-- A time codec that writes the instant as a decimal number and reads any
string back as the instant 0. -/
def sampleCodec : TimeCodec :=
  { format := fun t => some (formatInt t), parse := fun _ => some 0 }

/-- The task that `CreateTask` returns for the links `b`, `a` on a new store. -/
def sampleTask : Task :=
  { ID := 1, Links := GoMap.alloc [(lit "b", StatusProcessing), (lit "a", StatusProcessing)],
    CreatedAt := 1, UpdatedAt := 2 }

/-- The store after that `CreateTask`. -/
def sampleStore : Storage :=
  { tasks := GoMap.alloc [(1, some sampleTask)], nextID := 2,
    stateFile := lit "state/storage.json" }

/-- The store after `Available` has been recorded for the link `a`. -/
def sampleDone : Storage :=
  { tasks := GoMap.alloc [(1, some
      { ID := 1, Links := GoMap.alloc [(lit "b", StatusProcessing), (lit "a", StatusAvailable)],
        CreatedAt := 1, UpdatedAt := 3 })],
    nextID := 2, stateFile := lit "state/storage.json" }

/-- The store after `CreateTask` with the single link whose only byte is FF,
which is not valid UTF-8. -/
def rawLinkStore : Storage :=
  { tasks := GoMap.alloc [(1, some
      { ID := 1, Links := GoMap.alloc [([0xFF], StatusProcessing)],
        CreatedAt := 1, UpdatedAt := 2 })],
    nextID := 2, stateFile := lit "state/storage.json" }

/-- The store that `RestoreState` builds from the snapshot of `rawLinkStore`
written with `sampleCodec`: the link has become U+FFFD. -/
def rawLinkRestored : Storage :=
  { tasks := GoMap.alloc [(1, some
      { ID := 1, Links := GoMap.alloc [([0xEF, 0xBF, 0xBD], StatusProcessing)],
        CreatedAt := 0, UpdatedAt := 0 })],
    nextID := 2, stateFile := lit "state/storage.json" }

/-- Every link and every status of the task is valid UTF-8. -/
def linksUTF8 (t : Task) : Prop :=
  ∀ e, e ∈ t.Links.entries → validUTF8 e.1 ∧ validUTF8 e.2

instance (t : Task) : Decidable (linksUTF8 t) := by
  unfold linksUTF8
  infer_instance

/-- Every link and every status that the store holds is valid UTF-8. -/
def StoreUTF8 (s : Storage) : Prop :=
  ∀ e, e ∈ s.tasks.entries → ∀ t, t ∈ e.2 → linksUTF8 t

instance (s : Storage) : Decidable (StoreUTF8 s) := by
  unfold StoreUTF8
  infer_instance

/-! ## Entry lists -/

section Entries

variable {κ ν : Type} [DecidableEq κ]

theorem entriesGet_set_self (es : List (κ × ν)) (k : κ) (v : ν) :
    entriesGet (entriesSet es k v) k = some v := by
  induction es with
  | nil => simp [entriesSet, entriesGet]
  | cons e rest ih =>
    obtain ⟨k', v'⟩ := e
    by_cases h : k' = k
    · simp [entriesSet, entriesGet, h]
    · simp [entriesSet, entriesGet, h, ih]

theorem entriesGet_set_ne (es : List (κ × ν)) (k k' : κ) (v : ν) (h : k' ≠ k) :
    entriesGet (entriesSet es k v) k' = entriesGet es k' := by
  induction es with
  | nil =>
    have h2 : ¬ k = k' := fun e => h e.symm
    simp [entriesSet, entriesGet, h2]
  | cons e rest ih =>
    obtain ⟨k1, v1⟩ := e
    by_cases h1 : k1 = k
    · subst h1
      have h2 : ¬ k1 = k' := fun e => h e.symm
      simp [entriesSet, entriesGet, h2]
    · by_cases h3 : k1 = k'
      · subst h3
        simp [entriesSet, entriesGet, h]
      · simp [entriesSet, entriesGet, h1, h3, ih]

theorem entriesGet_eq_none_iff (es : List (κ × ν)) (k : κ) :
    entriesGet es k = none ↔ k ∉ es.map Prod.fst := by
  induction es with
  | nil => simp [entriesGet]
  | cons e rest ih =>
    obtain ⟨k1, v1⟩ := e
    by_cases h1 : k1 = k
    · simp [entriesGet, h1]
    · have h2 : ¬ k = k1 := fun e => h1 e.symm
      simp [entriesGet, h1, h2, ih]

theorem entriesGet_isSome_iff (es : List (κ × ν)) (k : κ) :
    (entriesGet es k).isSome = true ↔ k ∈ es.map Prod.fst := by
  rw [← not_iff_not, ← entriesGet_eq_none_iff]
  cases entriesGet es k <;> simp

theorem keys_entriesSet_of_mem (es : List (κ × ν)) (k : κ) (v : ν)
    (h : k ∈ es.map Prod.fst) :
    (entriesSet es k v).map Prod.fst = es.map Prod.fst := by
  induction es with
  | nil => simp at h
  | cons e rest ih =>
    obtain ⟨k1, v1⟩ := e
    by_cases h1 : k1 = k
    · simp [entriesSet, h1]
    · have h2 : ¬ k = k1 := fun e => h1 e.symm
      have h3 : k ∈ rest.map Prod.fst := by
        simpa [h2] using h
      simp [entriesSet, h1, ih h3]

theorem keys_entriesSet_of_not_mem (es : List (κ × ν)) (k : κ) (v : ν)
    (h : k ∉ es.map Prod.fst) :
    (entriesSet es k v).map Prod.fst = es.map Prod.fst ++ [k] := by
  induction es with
  | nil => simp [entriesSet]
  | cons e rest ih =>
    obtain ⟨k1, v1⟩ := e
    have h1 : ¬ k1 = k := by
      intro e
      apply h
      simp [e]
    have h3 : k ∉ rest.map Prod.fst := by
      intro hm
      apply h
      simp only [List.map_cons, List.mem_cons]
      exact Or.inr hm
    simp [entriesSet, h1, ih h3]

theorem mem_keys_entriesSet (es : List (κ × ν)) (k k' : κ) (v : ν) :
    k' ∈ (entriesSet es k v).map Prod.fst ↔ k' = k ∨ k' ∈ es.map Prod.fst := by
  by_cases h : k ∈ es.map Prod.fst
  · rw [keys_entriesSet_of_mem es k v h]
    constructor
    · exact Or.inr
    · rintro (rfl | h2)
      · exact h
      · exact h2
  · rw [keys_entriesSet_of_not_mem es k v h]
    simp only [List.mem_append, List.mem_singleton]
    tauto

theorem nodup_keys_entriesSet (es : List (κ × ν)) (k : κ) (v : ν)
    (h : (es.map Prod.fst).Nodup) : ((entriesSet es k v).map Prod.fst).Nodup := by
  by_cases hk : k ∈ es.map Prod.fst
  · rw [keys_entriesSet_of_mem es k v hk]
    exact h
  · rw [keys_entriesSet_of_not_mem es k v hk]
    rw [List.nodup_append]
    refine ⟨h, List.nodup_singleton k, ?_⟩
    intro a ha hb
    simp only [List.mem_singleton] at hb
    subst hb
    exact hk ha

end Entries

/-! ## The link map that CreateTask builds -/

theorem fillLinks_foldl_keys (links : List GoString) (acc : List (GoString × LinkStatus))
    (l : GoString) :
    l ∈ (links.foldl (fun es link => entriesSet es link StatusProcessing) acc).map Prod.fst
      ↔ l ∈ links ∨ l ∈ acc.map Prod.fst := by
  induction links generalizing acc with
  | nil => simp
  | cons a rest ih =>
    simp only [List.foldl_cons, List.mem_cons]
    rw [ih, mem_keys_entriesSet]
    tauto

theorem fillLinks_foldl_nodup (links : List GoString) (acc : List (GoString × LinkStatus))
    (h : (acc.map Prod.fst).Nodup) :
    ((links.foldl (fun es link => entriesSet es link StatusProcessing) acc).map
      Prod.fst).Nodup := by
  induction links generalizing acc with
  | nil => simpa using h
  | cons a rest ih =>
    simp only [List.foldl_cons]
    exact ih _ (nodup_keys_entriesSet acc a StatusProcessing h)

theorem fillLinks_foldl_get (links : List GoString) (acc : List (GoString × LinkStatus))
    (hacc : ∀ l v, entriesGet acc l = some v → v = StatusProcessing) :
    ∀ l v, entriesGet (links.foldl (fun es link => entriesSet es link StatusProcessing) acc) l
      = some v → v = StatusProcessing := by
  induction links generalizing acc with
  | nil => simpa using hacc
  | cons a rest ih =>
    simp only [List.foldl_cons]
    apply ih
    intro l v hl
    by_cases h : l = a
    · subst h
      rw [entriesGet_set_self] at hl
      exact (Option.some.inj hl).symm
    · rw [entriesGet_set_ne _ _ _ _ h] at hl
      exact hacc l v hl

theorem mem_keys_fillLinks (links : List GoString) (l : GoString) :
    l ∈ (fillLinks links).map Prod.fst ↔ l ∈ links := by
  unfold fillLinks
  rw [fillLinks_foldl_keys]
  simp

theorem nodup_keys_fillLinks (links : List GoString) :
    ((fillLinks links).map Prod.fst).Nodup := by
  unfold fillLinks
  exact fillLinks_foldl_nodup links [] (by simp)

theorem get_fillLinks (links : List GoString) (l : GoString) :
    entriesGet (fillLinks links) l = if l ∈ links then some StatusProcessing else none := by
  by_cases h : l ∈ links
  · rw [if_pos h]
    have hk : l ∈ (fillLinks links).map Prod.fst := (mem_keys_fillLinks links l).2 h
    rw [← entriesGet_isSome_iff] at hk
    cases hv : entriesGet (fillLinks links) l with
    | none => rw [hv] at hk; simp at hk
    | some v =>
      have := fillLinks_foldl_get links [] (by simp [entriesGet]) l v hv
      rw [this]
  · rw [if_neg h]
    rw [entriesGet_eq_none_iff, mem_keys_fillLinks]
    exact h

/-! ## CreateTask and UpdateLinkStatus, step by step -/

theorem CreateTask_alloc (s : Storage) (es : List (Int × Option Task))
    (h : s.tasks = GoMap.alloc es) (links : List GoString) (t1 t2 : Time) :
    CreateTask s links t1 t2 =
      .ok ({ ID := s.nextID, Links := GoMap.alloc (fillLinks links), CreatedAt := t1,
              UpdatedAt := t2 },
        { s with
          tasks := GoMap.alloc (entriesSet es s.nextID
            (some { ID := s.nextID, Links := GoMap.alloc (fillLinks links), CreatedAt := t1,
                    UpdatedAt := t2 })),
          nextID := s.nextID + 1 }) := by
  simp [CreateTask, h, GoMap.set]

theorem CreateTask_nil (s : Storage) (h : s.tasks = GoMap.nil) (links : List GoString)
    (t1 t2 : Time) : CreateTask s links t1 t2 = .error Panic.nilMapWrite := by
  simp [CreateTask, h, GoMap.set]

theorem CreateTask_ok_inv (s : Storage) (links : List GoString) (t1 t2 : Time) (task : Task)
    (s1 : Storage) (h : CreateTask s links t1 t2 = .ok (task, s1)) :
    ∃ es, s.tasks = GoMap.alloc es ∧
      task = { ID := s.nextID, Links := GoMap.alloc (fillLinks links), CreatedAt := t1,
               UpdatedAt := t2 } ∧
      s1 = { s with tasks := GoMap.alloc (entriesSet es s.nextID (some task)),
                    nextID := s.nextID + 1 } := by
  cases hm : s.tasks with
  | nil => rw [CreateTask_nil s hm] at h; cases h
  | alloc es =>
    rw [CreateTask_alloc s es hm] at h
    injection h with h
    injection h with h1 h2
    exact ⟨es, rfl, h1.symm, by rw [← h2, ← h1]⟩

theorem UpdateLinkStatus_absent (s : Storage) (taskID : Int) (link : GoString)
    (status : LinkStatus) (now : Time) (h : s.tasks.get? taskID = none) :
    UpdateLinkStatus s taskID link status now = .ok s := by
  simp [UpdateLinkStatus, h]

theorem UpdateLinkStatus_no_link (s : Storage) (taskID : Int) (link : GoString)
    (status : LinkStatus) (now : Time) (task : Task)
    (h : s.tasks.get? taskID = some (some task)) (hl : task.Links.get? link = none) :
    UpdateLinkStatus s taskID link status now = .ok s := by
  simp [UpdateLinkStatus, h, hl]

theorem get?_some_alloc {κ ν : Type} [DecidableEq κ] (m : GoMap κ ν) (k : κ) (v : ν)
    (h : m.get? k = some v) : m = GoMap.alloc m.entries := by
  cases m with
  | nil => simp [GoMap.get?, GoMap.entries, entriesGet] at h
  | alloc es => rfl

theorem UpdateLinkStatus_hit (s : Storage) (taskID : Int) (link : GoString)
    (status : LinkStatus) (now : Time) (task : Task) (old : LinkStatus)
    (h : s.tasks.get? taskID = some (some task)) (hl : task.Links.get? link = some old) :
    UpdateLinkStatus s taskID link status now =
      .ok { s with tasks := GoMap.alloc (entriesSet s.tasks.entries taskID
        (some { task with
          Links := GoMap.alloc (entriesSet task.Links.entries link status),
          UpdatedAt := now })) } := by
  have h1 := get?_some_alloc _ _ _ h
  have h2 := get?_some_alloc _ _ _ hl
  unfold UpdateLinkStatus
  rw [h]
  simp only [hl]
  rw [h2, h1]
  simp [GoMap.set, GoMap.entries]
/-! ## UpdateLinkStatus: misses and hits -/

/-- C4: `UpdateLinkStatus` with a task id that is not in the store, or with a
link that is not a key of the stored task, returns normally and leaves the whole
store as it was: task ids, counter, and every link key, status and timestamp of
every task. -/
theorem UpdateLinkStatus_miss_noop (s : Storage) (taskID : Int) (link : GoString)
    (status : LinkStatus) (now : Time)
    (h : s.tasks.get? taskID = none ∨
      ∃ task, s.tasks.get? taskID = some (some task) ∧ task.Links.get? link = none) :
    UpdateLinkStatus s taskID link status now = .ok s := by
  rcases h with h | ⟨task, h, hl⟩
  · exact UpdateLinkStatus_absent s taskID link status now h
  · exact UpdateLinkStatus_no_link s taskID link status now task h hl

theorem UpdateLinkStatus_hit_spec (s : Storage) (taskID : Int) (link : GoString)
    (status : LinkStatus) (now : Time) (task : Task) (old : LinkStatus)
    (h : s.tasks.get? taskID = some (some task)) (hl : task.Links.get? link = some old) :
    ∃ s1 task1, UpdateLinkStatus s taskID link status now = .ok s1 ∧
      s1.tasks.get? taskID = some (some task1) ∧
      task1.Links.get? link = some status ∧
      task1.Links.keys = task.Links.keys ∧
      (∀ l, l ≠ link → task1.Links.get? l = task.Links.get? l) ∧
      task1.ID = task.ID ∧ task1.CreatedAt = task.CreatedAt ∧ task1.UpdatedAt = now ∧
      (∀ id, id ≠ taskID → s1.tasks.get? id = s.tasks.get? id) ∧
      s1.tasks.keys = s.tasks.keys ∧
      s1.nextID = s.nextID ∧ s1.stateFile = s.stateFile := by
  refine ⟨_, { task with
      Links := GoMap.alloc (entriesSet task.Links.entries link status), UpdatedAt := now },
    UpdateLinkStatus_hit s taskID link status now task old h hl, ?_⟩
  have hk : taskID ∈ s.tasks.entries.map Prod.fst := by
    rw [← entriesGet_isSome_iff]
    have : entriesGet s.tasks.entries taskID = some (some task) := h
    rw [this]; rfl
  have hkl : link ∈ task.Links.entries.map Prod.fst := by
    rw [← entriesGet_isSome_iff]
    have : entriesGet task.Links.entries link = some old := hl
    rw [this]; rfl
  refine ⟨?_, ?_, ?_, ?_, rfl, rfl, rfl, ?_, ?_, rfl, rfl⟩
  · simp [GoMap.get?, GoMap.entries, entriesGet_set_self]
  · simp [GoMap.get?, GoMap.entries, entriesGet_set_self]
  · simp only [GoMap.keys, GoMap.entries]
    exact keys_entriesSet_of_mem _ _ _ hkl
  · intro l hne
    simp only [GoMap.get?, GoMap.entries]
    exact entriesGet_set_ne _ _ _ _ hne
  · intro id hne
    simp only [GoMap.get?, GoMap.entries]
    exact entriesGet_set_ne _ _ _ _ hne
  · simp only [GoMap.keys, GoMap.entries]
    exact keys_entriesSet_of_mem _ _ _ hk
/-! ## What one call keeps -/

theorem UpdateLinkStatus_keeps (s s1 : Storage) (taskID : Int) (link : GoString)
    (status : LinkStatus) (now : Time)
    (h : UpdateLinkStatus s taskID link status now = .ok s1) :
    s1.nextID = s.nextID ∧ s1.tasks.keys = s.tasks.keys ∧
    (∀ id, id ≠ taskID → s1.tasks.get? id = s.tasks.get? id) ∧
    (∀ id task, s.tasks.get? id = some (some task) →
      ∃ task1, s1.tasks.get? id = some (some task1) ∧ task1.Links.keys = task.Links.keys ∧
        task1.ID = task.ID ∧ task1.CreatedAt = task.CreatedAt ∧
        (∀ l, (id ≠ taskID ∨ l ≠ link) → task1.Links.get? l = task.Links.get? l)) := by
  have same : s1 = s →
      s1.nextID = s.nextID ∧ s1.tasks.keys = s.tasks.keys ∧
      (∀ id, id ≠ taskID → s1.tasks.get? id = s.tasks.get? id) ∧
      (∀ id task, s.tasks.get? id = some (some task) →
        ∃ task1, s1.tasks.get? id = some (some task1) ∧ task1.Links.keys = task.Links.keys ∧
          task1.ID = task.ID ∧ task1.CreatedAt = task.CreatedAt ∧
          (∀ l, (id ≠ taskID ∨ l ≠ link) → task1.Links.get? l = task.Links.get? l)) := by
    intro e
    subst e
    exact ⟨rfl, rfl, fun _ _ => rfl, fun id task ht => ⟨task, ht, rfl, rfl, rfl, fun _ _ => rfl⟩⟩
  cases hg : s.tasks.get? taskID with
  | none =>
    rw [UpdateLinkStatus_absent s taskID link status now hg] at h
    injection h with h
    exact same h.symm
  | some p =>
    cases p with
    | none => simp [UpdateLinkStatus, hg] at h
    | some t =>
      cases hl : t.Links.get? link with
      | none =>
        rw [UpdateLinkStatus_no_link s taskID link status now t hg hl] at h
        injection h with h
        exact same h.symm
      | some old =>
        obtain ⟨s2, t2, e, h1, _, h3, h4, h5, h6, _, h8, h9, h10, _⟩ :=
          UpdateLinkStatus_hit_spec s taskID link status now t old hg hl
        rw [e] at h
        injection h with h
        subst h
        refine ⟨h10, h9, h8, ?_⟩
        intro id task ht
        by_cases hid : id = taskID
        · subst hid
          rw [hg] at ht
          have : t = task := Option.some.inj (Option.some.inj ht)
          subst this
          refine ⟨t2, h1, h3, h5, h6, ?_⟩
          intro l hl2
          rcases hl2 with hl2 | hl2
          · exact absurd rfl hl2
          · exact h4 l hl2
        · refine ⟨task, ?_, rfl, rfl, rfl, fun _ _ => rfl⟩
          rw [h8 id hid]
          exact ht

theorem CreateTask_keeps (s s1 : Storage) (links : List GoString) (t1 t2 : Time) (task : Task)
    (h : CreateTask s links t1 t2 = .ok (task, s1)) :
    task.ID = s.nextID ∧ s1.nextID = s.nextID + 1 ∧
    s1.tasks.get? s.nextID = some (some task) ∧
    (∀ id, id ≠ s.nextID → s1.tasks.get? id = s.tasks.get? id) ∧
    (∀ id, id ∈ s1.tasks.keys ↔ id = s.nextID ∨ id ∈ s.tasks.keys) := by
  obtain ⟨es, hs, ht, hs1⟩ := CreateTask_ok_inv s links t1 t2 task s1 h
  subst hs1
  refine ⟨by rw [ht], rfl, ?_, ?_, ?_⟩
  · simp [GoMap.get?, GoMap.entries, entriesGet_set_self]
  · intro id hne
    simp only [GoMap.get?, GoMap.entries, hs]
    exact entriesGet_set_ne _ _ _ _ hne
  · intro id
    simp only [GoMap.keys, GoMap.entries, hs]
    exact mem_keys_entriesSet _ _ _ _

/-- Along a run, a stored task below the counter keeps its place, its id, its
creation time and its link keys, and the counter does not decrease. -/
theorem exec_keeps_task (ops : List Op) :
    ∀ (s s2 : Storage) (ids : List Int), exec s ops = .ok (s2, ids) →
      s.nextID ≤ s2.nextID ∧
      ∀ id task, id < s.nextID → s.tasks.get? id = some (some task) →
        ∃ task2, s2.tasks.get? id = some (some task2) ∧
          task2.Links.keys = task.Links.keys ∧ task2.ID = task.ID ∧
          task2.CreatedAt = task.CreatedAt := by
  induction ops with
  | nil =>
    intro s s2 ids h
    simp only [exec] at h
    injection h with h
    injection h with h1 h2
    subst h1
    exact ⟨le_refl _, fun id task _ ht => ⟨task, ht, rfl, rfl, rfl⟩⟩
  | cons op rest ih =>
    intro s s2 ids h
    cases op with
    | create links t1 t2 =>
      simp only [exec] at h
      cases hc : CreateTask s links t1 t2 with
      | error p => rw [hc] at h; cases h
      | ok r =>
        obtain ⟨task0, s1⟩ := r
        rw [hc] at h
        simp only at h
        cases he : exec s1 rest with
        | error p => rw [he] at h; cases h
        | ok r2 =>
          obtain ⟨s3, ids3⟩ := r2
          rw [he] at h
          simp only at h
          injection h with h
          injection h with h1 h2
          subst h1
          obtain ⟨_, hn, _, hother, _⟩ := CreateTask_keeps s s1 links t1 t2 task0 hc
          obtain ⟨hle, hk⟩ := ih s1 s3 ids3 he
          refine ⟨by omega, ?_⟩
          intro id task hlt ht
          have hne : id ≠ s.nextID := by omega
          have ht1 : s1.tasks.get? id = some (some task) := by rw [hother id hne]; exact ht
          exact hk id task (by omega) ht1
    | update taskID link status now =>
      simp only [exec] at h
      cases hu : UpdateLinkStatus s taskID link status now with
      | error p => rw [hu] at h; cases h
      | ok s1 =>
        rw [hu] at h
        simp only at h
        obtain ⟨hn, _, _, hkeep⟩ := UpdateLinkStatus_keeps s s1 taskID link status now hu
        obtain ⟨hle, hk⟩ := ih s1 s2 ids h
        refine ⟨by omega, ?_⟩
        intro id task hlt ht
        obtain ⟨task1, ht1, hk1, hid1, hc1, _⟩ := hkeep id task ht
        obtain ⟨task2, ht2, hk2, hid2, hc2⟩ := hk id task1 (by omega) ht1
        exact ⟨task2, ht2, by rw [hk2, hk1], by rw [hid2, hid1], by rw [hc2, hc1]⟩

theorem UpdateLinkStatus_hit_of_mem (s : Storage) (taskID : Int) (link : GoString)
    (status : LinkStatus) (now : Time) (task : Task)
    (h : s.tasks.get? taskID = some (some task)) (hl : link ∈ task.Links.keys) :
    ∃ s1 task1, UpdateLinkStatus s taskID link status now = .ok s1 ∧
      s1.tasks.get? taskID = some (some task1) ∧
      task1.Links.get? link = some status ∧
      task1.Links.keys = task.Links.keys ∧
      (∀ l, l ≠ link → task1.Links.get? l = task.Links.get? l) ∧
      task1.ID = task.ID ∧ task1.CreatedAt = task.CreatedAt ∧ task1.UpdatedAt = now ∧
      (∀ id, id ≠ taskID → s1.tasks.get? id = s.tasks.get? id) ∧
      s1.tasks.keys = s.tasks.keys ∧ s1.nextID = s.nextID := by
  have hsome : (task.Links.get? link).isSome = true :=
    (entriesGet_isSome_iff task.Links.entries link).2 hl
  cases hv : task.Links.get? link with
  | none => rw [hv] at hsome; cases hsome
  | some old =>
    obtain ⟨s1, task1, e, h1, h2, h3, h4, h5, h6, h7, h8, h9, h10, _⟩ :=
      UpdateLinkStatus_hit_spec s taskID link status now task old h hv
    exact ⟨s1, task1, e, h1, h2, h3, h4, h5, h6, h7, h8, h9, h10⟩

/-- C5: an `UpdateLinkStatus` that finds the task and the link returns normally;
afterwards the link maps to the given status, the task has the same link keys,
every other link keeps its status, id and createdAt are unchanged (updatedAt is
the time of the call), every other task and the counter are unchanged.  And a
task returned by `CreateTask` keeps its link keys in every state that later
`CreateTask` and `UpdateLinkStatus` calls reach. -/
theorem UpdateLinkStatus_frame :
    (∀ (s : Storage) (taskID : Int) (link : GoString) (status : LinkStatus) (now : Time)
      (task : Task),
      s.tasks.get? taskID = some (some task) → link ∈ task.Links.keys →
      ∃ s1 task1, UpdateLinkStatus s taskID link status now = .ok s1 ∧
        s1.tasks.get? taskID = some (some task1) ∧
        task1.Links.get? link = some status ∧
        task1.Links.keys = task.Links.keys ∧
        (∀ l, l ≠ link → task1.Links.get? l = task.Links.get? l) ∧
        task1.ID = task.ID ∧ task1.CreatedAt = task.CreatedAt ∧ task1.UpdatedAt = now ∧
        (∀ id, id ≠ taskID → s1.tasks.get? id = s.tasks.get? id) ∧
        s1.tasks.keys = s.tasks.keys ∧ s1.nextID = s.nextID) ∧
    (∀ (s s1 s2 : Storage) (links : List GoString) (t1 t2 : Time) (task : Task)
      (ops : List Op) (ids : List Int),
      CreateTask s links t1 t2 = .ok (task, s1) → exec s1 ops = .ok (s2, ids) →
      ∃ task2, s2.tasks.get? task.ID = some (some task2) ∧
        task2.Links.keys = task.Links.keys) := by
  constructor
  · intro s taskID link status now task h hl
    exact UpdateLinkStatus_hit_of_mem s taskID link status now task h hl
  · intro s s1 s2 links t1 t2 task ops ids hc he
    obtain ⟨hid, hn, hst, _, _⟩ := CreateTask_keeps s s1 links t1 t2 task hc
    obtain ⟨_, hk⟩ := exec_keeps_task ops s1 s2 ids he
    rw [hid]
    obtain ⟨task2, ht2, hk2, _, _⟩ := hk s.nextID task (by omega) hst
    exact ⟨task2, ht2, hk2⟩
/-! ## Classification of a probe -/

theorem checkSingleLink_eq_classify (net : HTTP) (link : GoString) :
    checkSingleLink net link = classifySpec (probeOutcome net link) := by
  have e : checkSingleLink net link =
      (if !(net.NewRequest (probeURL link)) then StatusError
       else
        match net.Do (probeURL link) with
        | none => StatusUnavailable
        | some statusCode =>
          if statusCode ≥ 200 ∧ statusCode < 400 then StatusAvailable
          else StatusUnavailable) := rfl
  rw [e]
  unfold probeOutcome
  cases net.NewRequest (probeURL link) with
  | false => simp [classifySpec]
  | true =>
    cases net.Do (probeURL link) with
    | none => simp [classifySpec]
    | some c => simp [classifySpec]

theorem classifySpec_terminal (o : ProbeOutcome) : isTerminal (classifySpec o) := by
  cases o with
  | requestError => exact Or.inr (Or.inr rfl)
  | transportError => exact Or.inr (Or.inl rfl)
  | response c =>
    simp only [classifySpec]
    by_cases h : 200 ≤ c ∧ c < 400
    · rw [if_pos h]; exact Or.inl rfl
    · rw [if_neg h]; exact Or.inr (Or.inl rfl)

theorem isTerminal_ne_processing (v : LinkStatus) (h : isTerminal v) :
    v ≠ StatusProcessing := by
  rcases h with h | h | h <;> rw [h] <;> decide

theorem checkSingleLink_terminal (net : HTTP) (link : GoString) :
    isTerminal (checkSingleLink net link) := by
  rw [checkSingleLink_eq_classify]
  exact classifySpec_terminal _

/-- C9: the status that `checkSingleLink` returns is a function of the probe
outcome alone: `Error` for a request that cannot be built, `Unavailable` for a
transport failure, and for a response with code `c`, `Available` exactly when
`200 <= c < 400` and `Unavailable` otherwise (199, 400, 404, 500 give
`Unavailable`; 200, 399 give `Available`).  It is never `Processing`, and it is
`Error` only for a request that cannot be built. -/
theorem checkSingleLink_classification (net : HTTP) (link : GoString) :
    checkSingleLink net link = classifySpec (probeOutcome net link) ∧
    (probeOutcome net link = ProbeOutcome.requestError →
      checkSingleLink net link = StatusError) ∧
    (probeOutcome net link = ProbeOutcome.transportError →
      checkSingleLink net link = StatusUnavailable) ∧
    (∀ c, probeOutcome net link = ProbeOutcome.response c →
      (checkSingleLink net link = StatusAvailable ↔ 200 ≤ c ∧ c < 400) ∧
      (¬ (200 ≤ c ∧ c < 400) → checkSingleLink net link = StatusUnavailable)) ∧
    (∀ c, c ∈ [199, 400, 404, 500] → probeOutcome net link = ProbeOutcome.response c →
      checkSingleLink net link = StatusUnavailable) ∧
    (∀ c, c ∈ [200, 399] → probeOutcome net link = ProbeOutcome.response c →
      checkSingleLink net link = StatusAvailable) ∧
    checkSingleLink net link ≠ StatusProcessing ∧
    (checkSingleLink net link = StatusError ↔
      probeOutcome net link = ProbeOutcome.requestError) := by
  have hc := checkSingleLink_eq_classify net link
  have hresp : ∀ c, probeOutcome net link = ProbeOutcome.response c →
      (checkSingleLink net link = StatusAvailable ↔ 200 ≤ c ∧ c < 400) ∧
      (¬ (200 ≤ c ∧ c < 400) → checkSingleLink net link = StatusUnavailable) := by
    intro c ho
    rw [hc, ho]
    simp only [classifySpec]
    by_cases h : 200 ≤ c ∧ c < 400
    · rw [if_pos h]
      exact ⟨⟨fun _ => h, fun _ => rfl⟩, fun hn => absurd h hn⟩
    · rw [if_neg h]
      refine ⟨⟨fun e => ?_, fun hp => absurd hp h⟩, fun _ => rfl⟩
      exact absurd e (by decide)
  refine ⟨hc, ?_, ?_, hresp, ?_, ?_, ?_, ?_⟩
  · intro ho
    rw [hc, ho]; rfl
  · intro ho
    rw [hc, ho]; rfl
  · intro c hmem ho
    apply (hresp c ho).2
    simp only [List.mem_cons, List.mem_singleton, List.not_mem_nil, or_false] at hmem
    omega
  · intro c hmem ho
    apply (hresp c ho).1.2
    simp only [List.mem_cons, List.mem_singleton, List.not_mem_nil, or_false] at hmem
    omega
  · exact isTerminal_ne_processing _ (checkSingleLink_terminal net link)
  · rw [hc]
    constructor
    · intro e
      cases ho : probeOutcome net link with
      | requestError => rfl
      | transportError =>
        rw [ho] at e
        exact absurd e (by decide)
      | response c =>
        rw [ho] at e
        simp only [classifySpec] at e
        by_cases h : 200 ≤ c ∧ c < 400
        · rw [if_pos h] at e
          exact absurd e (by decide)
        · rw [if_neg h] at e
          exact absurd e (by decide)
    · intro ho
      rw [ho]; rfl
/-! ## SaveState and the store -/

theorem SaveState_store (codec : TimeCodec) (s : Storage) (disk : FileState)
    (writeFailure : Option FileState) : (SaveState codec s disk writeFailure).1 = s := by
  unfold SaveState
  dsimp only
  split
  · rfl
  · split <;> rfl

/-! ## The store invariant and the ids of a run -/

theorem StoreInv_NewStorage : StoreInv NewStorage := by
  refine ⟨⟨[], rfl⟩, ?_, ?_, ?_⟩
  · simp [NewStorage, GoMap.keys, GoMap.entries]
  · intro id h
    simp [NewStorage, GoMap.keys, GoMap.entries] at h
  · intro id p h
    simp [NewStorage, GoMap.get?, GoMap.entries, entriesGet] at h

theorem get?_none_of_lt (s : Storage) (h : ∀ id, id ∈ s.tasks.keys → id < s.nextID) :
    s.tasks.get? s.nextID = none := by
  rw [GoMap.get?, entriesGet_eq_none_iff]
  intro hm
  exact absurd (h _ hm) (lt_irrefl _)

theorem StoreInv_CreateTask (s : Storage) (hinv : StoreInv s) (links : List GoString)
    (t1 t2 : Time) :
    ∃ task s1, CreateTask s links t1 t2 = .ok (task, s1) ∧ StoreInv s1 := by
  obtain ⟨⟨es, hes⟩, hnd, hlt, hp⟩ := hinv
  refine ⟨_, _, CreateTask_alloc s es hes links t1 t2, ?_⟩
  have hkeys : s.tasks.keys = es.map Prod.fst := by rw [hes]; rfl
  refine ⟨⟨_, rfl⟩, ?_, ?_, ?_⟩
  · simp only [GoMap.keys, GoMap.entries]
    apply nodup_keys_entriesSet
    rw [← hkeys]; exact hnd
  · intro id hm
    simp only [GoMap.keys, GoMap.entries] at hm
    show id < s.nextID + 1
    rcases (mem_keys_entriesSet _ _ _ _).1 hm with h | h
    · rw [h]; omega
    · have := hlt id (by rw [hkeys]; exact h)
      omega
  · intro id p hg
    simp only [GoMap.get?, GoMap.entries] at hg
    by_cases hid : id = s.nextID
    · subst hid
      rw [entriesGet_set_self] at hg
      refine ⟨_, (Option.some.inj hg).symm, ⟨_, rfl⟩, ?_⟩
      simp only [GoMap.keys, GoMap.entries]
      exact nodup_keys_fillLinks links
    · rw [entriesGet_set_ne _ _ _ _ hid] at hg
      apply hp id p
      rw [hes]
      exact hg

theorem StoreInv_UpdateLinkStatus (s : Storage) (hinv : StoreInv s) (taskID : Int)
    (link : GoString) (status : LinkStatus) (now : Time) :
    ∃ s1, UpdateLinkStatus s taskID link status now = .ok s1 ∧ StoreInv s1 ∧
      s1.nextID = s.nextID := by
  obtain ⟨⟨es, hes⟩, hnd, hlt, hp⟩ := hinv
  cases hg : s.tasks.get? taskID with
  | none =>
    exact ⟨s, UpdateLinkStatus_absent s taskID link status now hg,
      ⟨⟨es, hes⟩, hnd, hlt, hp⟩, rfl⟩
  | some p =>
    obtain ⟨t, ht, ⟨ls, hls⟩, htnd⟩ := hp taskID p hg
    subst ht
    cases hl : t.Links.get? link with
    | none =>
      exact ⟨s, UpdateLinkStatus_no_link s taskID link status now t hg hl,
        ⟨⟨es, hes⟩, hnd, hlt, hp⟩, rfl⟩
    | some old =>
      refine ⟨_, UpdateLinkStatus_hit s taskID link status now t old hg hl, ?_, rfl⟩
      have hk : taskID ∈ s.tasks.entries.map Prod.fst := by
        rw [← entriesGet_isSome_iff]
        have : entriesGet s.tasks.entries taskID = some (some t) := hg
        rw [this]; rfl
      have hkeys : (entriesSet s.tasks.entries taskID
          (some { t with Links := GoMap.alloc (entriesSet t.Links.entries link status),
                         UpdatedAt := now })).map Prod.fst = s.tasks.keys :=
        keys_entriesSet_of_mem _ _ _ hk
      refine ⟨⟨_, rfl⟩, ?_, ?_, ?_⟩
      · show (List.map Prod.fst (entriesSet s.tasks.entries taskID _)).Nodup
        rw [hkeys]; exact hnd
      · intro id hm
        change id ∈ List.map Prod.fst (entriesSet s.tasks.entries taskID _) at hm
        rw [hkeys] at hm
        exact hlt id hm
      · intro id p hg2
        change entriesGet (entriesSet s.tasks.entries taskID _) id = some p at hg2
        by_cases hid : id = taskID
        · subst hid
          rw [entriesGet_set_self] at hg2
          refine ⟨_, (Option.some.inj hg2).symm, ⟨_, rfl⟩, ?_⟩
          show (List.map Prod.fst (entriesSet t.Links.entries link status)).Nodup
          exact nodup_keys_entriesSet _ _ _ htnd
        · rw [entriesGet_set_ne _ _ _ _ hid] at hg2
          exact hp id p hg2

theorem exec_from_inv (ops : List Op) :
    ∀ s : Storage, StoreInv s →
      ∃ s2 ids, exec s ops = .ok (s2, ids) ∧ StoreInv s2 ∧
        ids = (List.range ids.length).map (fun (k : Nat) => s.nextID + (k : Int)) ∧
        s2.nextID = s.nextID + (ids.length : Int) := by
  induction ops with
  | nil =>
    intro s hinv
    exact ⟨s, [], rfl, hinv, by simp, by simp⟩
  | cons op rest ih =>
    intro s hinv
    cases op with
    | create links t1 t2 =>
      obtain ⟨task, s1, hc, hinv1⟩ := StoreInv_CreateTask s hinv links t1 t2
      obtain ⟨hid, hn, _, _, _⟩ := CreateTask_keeps s s1 links t1 t2 task hc
      obtain ⟨s2, ids, he, hinv2, hids, hn2⟩ := ih s1 hinv1
      refine ⟨s2, task.ID :: ids, ?_, hinv2, ?_, ?_⟩
      · simp only [exec, hc, he]
      · simp only [List.length_cons, List.range_succ_eq_map, List.map_cons, List.map_map]
        rw [hid]
        congr 1
        · simp
        · conv_lhs => rw [hids]
          apply List.map_congr_left
          intro k _
          simp only [Function.comp, hn]
          push_cast
          ring
      · rw [hn2, hn]
        simp only [List.length_cons]
        push_cast
        ring
    | update taskID link status now =>
      obtain ⟨s1, hu, hinv1, hn⟩ := StoreInv_UpdateLinkStatus s hinv taskID link status now
      obtain ⟨s2, ids, he, hinv2, hids, hn2⟩ := ih s1 hinv1
      refine ⟨s2, ids, ?_, hinv2, ?_, ?_⟩
      · simp only [exec, hu]
        exact he
      · rw [← hn]; exact hids
      · rw [← hn]; exact hn2

/-- C2: every sequence of `CreateTask` and `UpdateLinkStatus` calls on a store
made by `NewStorage` runs to its end; the ids that the `CreateTask` calls return
are 1, 2, 3, ... in call order (so strictly increasing and pairwise distinct),
every id in the task map is below the counter, and a further `CreateTask` writes
under an id that held no task and leaves every stored task as it was. -/
theorem CreateTask_ids_from_NewStorage (ops : List Op) :
    ∃ s ids, exec NewStorage ops = .ok (s, ids) ∧
      ids = (List.range ids.length).map (fun (k : Nat) => (k : Int) + 1) ∧
      ids.Pairwise (fun a b => a < b) ∧ ids.Nodup ∧
      s.nextID = (ids.length : Int) + 1 ∧
      (∀ id, id ∈ s.tasks.keys → id < s.nextID) ∧
      (∀ links t1 t2, ∃ task s1, CreateTask s links t1 t2 = .ok (task, s1) ∧
        s.tasks.get? task.ID = none ∧
        ∀ id, id ∈ s.tasks.keys → s1.tasks.get? id = s.tasks.get? id) := by
  obtain ⟨s, ids, he, hinv, hids, hn⟩ := exec_from_inv ops NewStorage StoreInv_NewStorage
  have hids1 : ids = (List.range ids.length).map (fun (k : Nat) => (k : Int) + 1) := by
    conv_lhs => rw [hids]
    apply List.map_congr_left
    intro k _
    simp only [NewStorage]
    ring
  have hpw : ids.Pairwise (fun a b => a < b) := by
    rw [hids1, List.pairwise_map]
    apply List.Pairwise.imp _ (List.pairwise_lt_range ids.length)
    intro a b hab
    omega
  refine ⟨s, ids, he, hids1, hpw, ?_, ?_, hinv.2.2.1, ?_⟩
  · exact hpw.imp (fun h => ne_of_lt h)
  · rw [hn]
    simp only [NewStorage]
    ring
  · intro links t1 t2
    obtain ⟨task, s1, hc, _⟩ := StoreInv_CreateTask s hinv links t1 t2
    obtain ⟨hid, _, _, hother, _⟩ := CreateTask_keeps s s1 links t1 t2 task hc
    refine ⟨task, s1, hc, ?_, ?_⟩
    · rw [hid]
      exact get?_none_of_lt s hinv.2.2.1
    · intro id hm
      apply hother
      have := hinv.2.2.1 id hm
      omega
/-! ## CreateTask -/

/-- On a store whose task map is allocated, `CreateTask` returns a task whose id
is the counter before the call, whose link keys are exactly the distinct strings
of `links`, each mapped to `Processing`; the store then holds this task under
that id, the counter is one larger (as an unbounded integer: the wrap at the
largest `int` is not embedded), and every other id holds what it held. -/
theorem CreateTask_spec_alloc (s : Storage) (links : List GoString) (t1 t2 : Time)
    (h : s.tasks ≠ GoMap.nil) :
    ∃ task s1, CreateTask s links t1 t2 = .ok (task, s1) ∧
      task.ID = s.nextID ∧
      (∀ l, l ∈ task.Links.keys ↔ l ∈ links) ∧ task.Links.keys.Nodup ∧
      (∀ l, l ∈ task.Links.keys → task.Links.get? l = some StatusProcessing) ∧
      task.CreatedAt = t1 ∧ task.UpdatedAt = t2 ∧
      s1.tasks.get? task.ID = some (some task) ∧
      s1.nextID = s.nextID + 1 ∧
      (∀ id, id ≠ task.ID → s1.tasks.get? id = s.tasks.get? id) ∧
      (∀ id, id ∈ s1.tasks.keys ↔ id = task.ID ∨ id ∈ s.tasks.keys) := by
  cases hm : s.tasks with
  | nil => exact absurd hm h
  | alloc es =>
    have hc := CreateTask_alloc s es hm links t1 t2
    obtain ⟨hid, hn, hst, hother, hkeys⟩ := CreateTask_keeps s _ links t1 t2 _ hc
    refine ⟨_, _, hc, rfl, ?_, ?_, ?_, rfl, rfl, ?_, ?_, ?_, ?_⟩
    · intro l
      exact mem_keys_fillLinks links l
    · exact nodup_keys_fillLinks links
    · intro l hl
      have hl2 : l ∈ links := (mem_keys_fillLinks links l).1 hl
      show entriesGet (fillLinks links) l = some StatusProcessing
      rw [get_fillLinks, if_pos hl2]
    · exact hst
    · exact hn
    · intro id hne
      rw [← hm]
      exact hother id hne
    · intro id
      rw [← hm]
      exact hkeys id

/-- C1: a store whose task map is nil is what `RestoreState` leaves after it
reads the snapshot with the single member `next_id`, and on that store
`CreateTask` does not return a task: it panics on the write to the nil map. -/
theorem CreateTask_on_restored_nil_map (codec : TimeCodec) :
    RestoreState codec NewStorage
        (FileState.document (Json.obj [(lit "next_id", Json.int 5)])) =
      ({ tasks := GoMap.nil, nextID := 5, stateFile := lit "state/storage.json" }, none) ∧
    CreateTask { tasks := GoMap.nil, nextID := 5, stateFile := lit "state/storage.json" }
        [lit "example.com"] 0 0 = .error Panic.nilMapWrite := by
  constructor
  · rfl
  · rfl

/-! ## Overwriting a status -/

/-- C6, as stated, fails: in the store reached from `NewStorage` by creating a
task with the link `a` and recording `Available` for it, a further
`UpdateLinkStatus` with `Processing` returns a store in which the link is
`Processing` again. -/
theorem UpdateLinkStatus_reopens_link :
    ∃ s s1,
      exec NewStorage [Op.create [lit "a"] 0 0, Op.update 1 (lit "a") StatusAvailable 1] =
        .ok (s, [1]) ∧
      linkStatus s 1 (lit "a") = some StatusAvailable ∧
      UpdateLinkStatus s 1 (lit "a") StatusProcessing 2 = .ok s1 ∧
      linkStatus s1 1 (lit "a") = some StatusProcessing :=
  ⟨_, _, rfl, rfl, rfl, rfl⟩

/-- C6, amended: for a link of a stored task with status `v` (in particular a
terminal one), `CreateTask` leaves the status as it is unless the task sits
under the id that the counter holds, and `UpdateLinkStatus` on another task or
another link leaves it as it is; `UpdateLinkStatus` on that task and link
overwrites it with the status argument, whatever the argument is.  The statuses
that `CheckLinks` writes come from `checkSingleLink` and are never
`Processing`. -/
theorem link_status_writes (s : Storage) (taskID : Int) (link : GoString) (v : LinkStatus)
    (h : linkStatus s taskID link = some v) :
    (∀ links t1 t2 task s1, CreateTask s links t1 t2 = .ok (task, s1) →
      taskID ≠ s.nextID → linkStatus s1 taskID link = some v) ∧
    (∀ id l status now s1, UpdateLinkStatus s id l status now = .ok s1 →
      id ≠ taskID ∨ l ≠ link → linkStatus s1 taskID link = some v) ∧
    (∀ status now, ∃ s1, UpdateLinkStatus s taskID link status now = .ok s1 ∧
      linkStatus s1 taskID link = some status) ∧
    (∀ net l, checkSingleLink net l ≠ StatusProcessing) := by
  have hst : ∃ task, s.tasks.get? taskID = some (some task) ∧
      task.Links.get? link = some v := by
    unfold linkStatus at h
    cases hg : s.tasks.get? taskID with
    | none => rw [hg] at h; cases h
    | some p =>
      cases p with
      | none => rw [hg] at h; cases h
      | some t =>
        rw [hg] at h
        exact ⟨t, rfl, h⟩
  obtain ⟨task, hg, hl⟩ := hst
  refine ⟨?_, ?_, ?_, ?_⟩
  · intro links t1 t2 task0 s1 hc hne
    obtain ⟨_, _, _, hother, _⟩ := CreateTask_keeps s s1 links t1 t2 task0 hc
    unfold linkStatus
    rw [hother taskID hne, hg]
    exact hl
  · intro id l status now s1 hu hne
    obtain ⟨_, _, _, hkeep⟩ := UpdateLinkStatus_keeps s s1 id l status now hu
    obtain ⟨task1, ht1, _, _, _, hsame⟩ := hkeep taskID task hg
    unfold linkStatus
    rw [ht1]
    show task1.Links.get? link = some v
    rw [hsame link (by
      rcases hne with h1 | h1
      · exact Or.inl (fun e => h1 e.symm)
      · exact Or.inr (fun e => h1 e.symm))]
    exact hl
  · intro status now
    obtain ⟨s1, task1, e, h1, h2, _⟩ :=
      UpdateLinkStatus_hit_spec s taskID link status now task v hg hl
    refine ⟨s1, e, ?_⟩
    unfold linkStatus
    rw [h1]
    exact h2
  · intro net l
    exact isTerminal_ne_processing _ (checkSingleLink_terminal net l)
/-! ## RestoreState -/

/-- C8: `RestoreState` changes the store only when the state file exists and
parses; then task map and counter are the decoded ones and no error is
returned.  With a missing file it returns no error, with an unreadable or
unparsable file it returns an error, and in both cases the store is exactly
what it was (on a fresh store: the empty map and counter 1). -/
theorem RestoreState_all_or_nothing (codec : TimeCodec) (s : Storage) (disk : FileState) :
    (disk = FileState.missing → RestoreState codec s disk = (s, none)) ∧
    (disk = FileState.unreadable ∨ disk = FileState.garbled ∨
        (∃ doc, disk = FileState.document doc ∧ unmarshalState codec doc = none) →
      ∃ err, RestoreState codec s disk = (s, some err)) ∧
    (∀ doc st, disk = FileState.document doc → unmarshalState codec doc = some st →
      RestoreState codec s disk =
        ({ s with tasks := st.Tasks, nextID := st.NextID }, none)) ∧
    ((RestoreState codec s disk).1 ≠ s →
      ∃ doc st, disk = FileState.document doc ∧ unmarshalState codec doc = some st ∧
        (RestoreState codec s disk).2 = none) ∧
    RestoreState codec NewStorage FileState.missing =
      ({ tasks := GoMap.alloc [], nextID := 1, stateFile := lit "state/storage.json" }, none) := by
  refine ⟨?_, ?_, ?_, ?_, rfl⟩
  · intro h
    subst h
    rfl
  · intro h
    rcases h with h | h | ⟨doc, h, hd⟩
    · subst h
      exact ⟨StoreError.read, rfl⟩
    · subst h
      exact ⟨StoreError.parse, rfl⟩
    · subst h
      refine ⟨StoreError.parse, ?_⟩
      simp only [RestoreState, hd]
  · intro doc st h hd
    subst h
    simp only [RestoreState, hd]
  · intro hne
    cases disk with
    | missing => exact absurd rfl hne
    | unreadable => exact absurd rfl hne
    | garbled => exact absurd rfl hne
    | document doc =>
      cases hd : unmarshalState codec doc with
      | none =>
        simp only [RestoreState, hd] at hne
        exact absurd rfl hne
      | some st =>
        refine ⟨doc, st, rfl, hd, ?_⟩
        simp only [RestoreState, hd]

/-- C10: `RestoreState` accepts, without error, the snapshot without members,
the snapshot `null`, a snapshot whose task map is `null`, and a snapshot that
maps the id 7 to `null`.  After each of the first three the task map is nil and
`CreateTask` panics on its map write; after the fourth `UpdateLinkStatus` with
the id 7 panics on the nil task.  `GetTask` and `GetTasksForReport` return
normally (the absent task, and the list holding the nil pointer). -/
theorem operations_after_accepted_snapshot (codec : TimeCodec) (links : List GoString)
    (link : GoString) (status : LinkStatus) (t1 t2 : Time) :
    (RestoreState codec NewStorage (FileState.document (Json.obj []))).2 = none ∧
    CreateTask (RestoreState codec NewStorage (FileState.document (Json.obj []))).1
      links t1 t2 = .error Panic.nilMapWrite ∧
    (RestoreState codec NewStorage (FileState.document Json.null)).2 = none ∧
    CreateTask (RestoreState codec NewStorage (FileState.document Json.null)).1
      links t1 t2 = .error Panic.nilMapWrite ∧
    (RestoreState codec NewStorage (FileState.document
      (Json.obj [(lit "tasks", Json.null), (lit "next_id", Json.int 3)]))).2 = none ∧
    CreateTask (RestoreState codec NewStorage (FileState.document
      (Json.obj [(lit "tasks", Json.null), (lit "next_id", Json.int 3)]))).1
      links t1 t2 = .error Panic.nilMapWrite ∧
    (RestoreState codec NewStorage (FileState.document
      (Json.obj [(lit "tasks", Json.obj [(lit "7", Json.null)]),
        (lit "next_id", Json.int 8)]))).2 = none ∧
    UpdateLinkStatus (RestoreState codec NewStorage (FileState.document
      (Json.obj [(lit "tasks", Json.obj [(lit "7", Json.null)]),
        (lit "next_id", Json.int 8)]))).1
      7 link status t1 = .error Panic.nilDeref ∧
    GetTask (RestoreState codec NewStorage (FileState.document
      (Json.obj [(lit "tasks", Json.obj [(lit "7", Json.null)]),
        (lit "next_id", Json.int 8)]))).1 7
      = none ∧
    GetTasksForReport (RestoreState codec NewStorage (FileState.document
      (Json.obj [(lit "tasks", Json.obj [(lit "7", Json.null)]),
        (lit "next_id", Json.int 8)]))).1 [7]
      = [none] := by
  refine ⟨rfl, rfl, rfl, rfl, rfl, rfl, rfl, rfl, rfl, rfl⟩
/-! ## Decimal keys -/

theorem parseDigits_append (xs ys : GoString) :
    ∀ acc, parseDigits (xs ++ ys) acc = (parseDigits xs acc).bind (fun a => parseDigits ys a) := by
  induction xs with
  | nil => intro acc; rfl
  | cons c cs ih =>
    intro acc
    simp only [List.cons_append, parseDigits]
    cases digitVal c with
    | none => rfl
    | some d => exact ih _

theorem digitVal_digit : ∀ d, d < 10 → digitVal (UInt8.ofNat (48 + d)) = some d := by
  decide

theorem digit_ascii : ∀ d, d < 10 → UInt8.ofNat (48 + d) < 0x80 := by
  decide

theorem parseDigits_natDigits (fuel : Nat) :
    ∀ n, n < fuel → parseDigits (natDigits fuel n) 0 = some n := by
  induction fuel with
  | zero => intro n h; omega
  | succ f ih =>
    intro n h
    unfold natDigits
    by_cases h10 : n < 10
    · rw [if_pos h10]
      simp only [parseDigits, digitVal_digit n h10]
      simp
    · rw [if_neg h10]
      have hlt : n / 10 < f := by omega
      rw [parseDigits_append, ih (n / 10) hlt]
      have hd := digitVal_digit (n % 10) (Nat.mod_lt n (by decide))
      simp only [Option.bind, parseDigits, hd]
      congr 1
      omega

theorem natDigits_head (fuel : Nat) :
    ∀ n, 0 < fuel → ∃ c cs, natDigits fuel n = c :: cs ∧ ∃ d, digitVal c = some d := by
  induction fuel with
  | zero => intro n h; omega
  | succ f ih =>
    intro n _
    unfold natDigits
    by_cases h10 : n < 10
    · rw [if_pos h10]
      exact ⟨_, [], rfl, n, digitVal_digit n h10⟩
    · rw [if_neg h10]
      cases f with
      | zero =>
        exact ⟨_, [], rfl, n % 10, digitVal_digit (n % 10) (Nat.mod_lt n (by decide))⟩
      | succ g =>
        obtain ⟨c, cs, e, d, hd⟩ := ih (n / 10) (by omega)
        rw [e]
        exact ⟨c, cs ++ [UInt8.ofNat (48 + n % 10)], rfl, d, hd⟩

theorem natDigits_ascii (fuel : Nat) :
    ∀ n b, b ∈ natDigits fuel n → b < 0x80 := by
  induction fuel with
  | zero =>
    intro n b hb
    simp [natDigits] at hb
  | succ f ih =>
    intro n b hb
    unfold natDigits at hb
    by_cases h10 : n < 10
    · rw [if_pos h10] at hb
      rw [List.mem_singleton] at hb
      rw [hb]
      exact digit_ascii n h10
    · rw [if_neg h10] at hb
      rcases List.mem_append.1 hb with h | h
      · exact ih (n / 10) b h
      · rw [List.mem_singleton] at h
        rw [h]
        exact digit_ascii (n % 10) (Nat.mod_lt n (by decide))

theorem parseNat_natDigits (fuel n : Nat) (h : n < fuel) :
    parseNat (natDigits fuel n) = some n := by
  obtain ⟨c, cs, e, _⟩ := natDigits_head fuel n (by omega)
  have := parseDigits_natDigits fuel n h
  rw [e] at this ⊢
  exact this

theorem parseInt_formatInt (n : Int) : parseInt (formatInt n) = some n := by
  cases n with
  | ofNat m =>
    obtain ⟨c, cs, e, d, hd⟩ := natDigits_head (m + 1) m (by omega)
    have hp := parseNat_natDigits (m + 1) m (by omega)
    have h45 : c ≠ 45 := by
      intro hc
      have hn : digitVal 45 = none := by decide
      rw [hc, hn] at hd
      cases hd
    have h43 : c ≠ 43 := by
      intro hc
      have hn : digitVal 43 = none := by decide
      rw [hc, hn] at hd
      cases hd
    simp only [formatInt, parseInt, e, if_neg h45, if_neg h43]
    rw [← e, hp]
    rfl
  | negSucc m =>
    have hp := parseNat_natDigits (m + 2) (m + 1) (by omega)
    simp only [formatInt, parseInt, if_true, hp]
    rfl

theorem formatInt_ascii (n : Int) : ∀ b, b ∈ formatInt n → b < 0x80 := by
  intro b hb
  cases n with
  | ofNat m => exact natDigits_ascii (m + 1) m b hb
  | negSucc m =>
    simp only [formatInt, List.mem_cons] at hb
    rcases hb with h | h
    · rw [h]; decide
    · exact natDigits_ascii (m + 2) (m + 1) b h

/-! ## Strings that the JSON writer leaves as they are -/

theorem coerceFrom_ascii (s : GoString) (h : ∀ b, b ∈ s → b < 0x80) :
    coerceFrom 0 s = s := by
  induction s with
  | nil => rfl
  | cons b rest ih =>
    have hb : b < 0x80 := h b (List.mem_cons_self b rest)
    have hr : runeLen (b :: rest) = 1 := by
      simp only [runeLen, if_pos hb]
    simp only [coerceFrom, hr]
    rw [ih (fun c hc => h c (List.mem_cons_of_mem b hc))]

theorem coerceUTF8_formatInt (n : Int) : coerceUTF8 (formatInt n) = formatInt n :=
  coerceFrom_ascii _ (formatInt_ascii n)

/-! ## Sorted members and lookups -/

theorem insertByKey_perm {α : Type} (m : GoString × α) (l : List (GoString × α)) :
    (insertByKey m l).Perm (m :: l) := by
  induction l with
  | nil => exact List.Perm.refl _
  | cons a rest ih =>
    unfold insertByKey
    by_cases h : bytesLt a.1 m.1 = true
    · rw [if_pos h]
      exact (List.Perm.cons a ih).trans (List.Perm.swap m a rest)
    · rw [if_neg h]

theorem sortByKey_perm {α : Type} (l : List (GoString × α)) : (sortByKey l).Perm l := by
  induction l with
  | nil => exact List.Perm.refl _
  | cons a rest ih =>
    unfold sortByKey
    exact (insertByKey_perm a (sortByKey rest)).trans (List.Perm.cons a ih)

theorem insertByKey_map {α β : Type} (f : α → β) (m : GoString × α)
    (l : List (GoString × α)) :
    insertByKey (m.1, f m.2) (l.map (fun e => (e.1, f e.2))) =
      (insertByKey m l).map (fun e => (e.1, f e.2)) := by
  induction l with
  | nil => rfl
  | cons a rest ih =>
    simp only [List.map_cons, insertByKey]
    by_cases h : bytesLt a.1 m.1 = true
    · rw [if_pos h, if_pos h, List.map_cons, ih]
    · rw [if_neg h, if_neg h]
      rfl

theorem sortByKey_map {α β : Type} (f : α → β) (l : List (GoString × α)) :
    sortByKey (l.map (fun e => (e.1, f e.2))) = (sortByKey l).map (fun e => (e.1, f e.2)) := by
  induction l with
  | nil => rfl
  | cons a rest ih =>
    simp only [List.map_cons, sortByKey]
    rw [ih]
    exact insertByKey_map f a (sortByKey rest)
section Lookup

variable {κ ν : Type} [DecidableEq κ]

theorem entriesGet_eq_some_iff (es : List (κ × ν)) (hnd : (es.map Prod.fst).Nodup)
    (k : κ) (v : ν) : entriesGet es k = some v ↔ (k, v) ∈ es := by
  induction es with
  | nil => simp [entriesGet]
  | cons e rest ih =>
    obtain ⟨k1, v1⟩ := e
    simp only [List.map_cons, List.nodup_cons] at hnd
    obtain ⟨hk1, hrest⟩ := hnd
    by_cases h : k1 = k
    · subst h
      simp only [entriesGet, if_true, List.mem_cons, Prod.mk.injEq, true_and]
      constructor
      · intro e
        exact Or.inl (Option.some.inj e).symm
      · rintro (e | hm)
        · rw [e]
        · exfalso
          apply hk1
          exact List.mem_map.2 ⟨(k1, v), hm, rfl⟩
    · have h2 : ¬ k = k1 := fun e => h e.symm
      simp only [entriesGet, if_neg h, List.mem_cons, Prod.mk.injEq, h2, false_and, false_or]
      exact ih hrest

theorem entriesGet_perm (es es' : List (κ × ν)) (hp : es.Perm es')
    (hnd : (es.map Prod.fst).Nodup) (k : κ) : entriesGet es k = entriesGet es' k := by
  have hnd' : (es'.map Prod.fst).Nodup := (hp.map Prod.fst).nodup_iff.1 hnd
  cases h : entriesGet es' k with
  | none =>
    rw [entriesGet_eq_none_iff] at h ⊢
    intro hm
    exact h ((hp.map Prod.fst).mem_iff.1 hm)
  | some v =>
    rw [entriesGet_eq_some_iff es' hnd'] at h
    rw [entriesGet_eq_some_iff es hnd]
    exact hp.mem_iff.2 h

theorem entriesGet_foldSet (kvs : List (κ × ν)) (hnd : (kvs.map Prod.fst).Nodup) (k : κ) :
    ∀ acc : List (κ × ν), entriesGet (foldSet acc kvs) k =
      match entriesGet kvs k with
      | some v => some v
      | none => entriesGet acc k := by
  induction kvs with
  | nil => intro acc; rfl
  | cons e rest ih =>
    intro acc
    obtain ⟨k1, v1⟩ := e
    simp only [List.map_cons, List.nodup_cons] at hnd
    obtain ⟨hk1, hrest⟩ := hnd
    have e1 : foldSet acc ((k1, v1) :: rest) = foldSet (entriesSet acc k1 v1) rest := rfl
    rw [e1, ih hrest]
    by_cases h : k1 = k
    · subst h
      have hn : entriesGet rest k1 = none := (entriesGet_eq_none_iff rest k1).2 hk1
      simp only [hn, entriesGet, if_true]
      exact entriesGet_set_self acc k1 v1
    · have h2 : k ≠ k1 := fun e => h e.symm
      simp only [entriesGet, if_neg h]
      rw [entriesGet_set_ne acc k1 k v1 h2]

theorem keys_foldSet (kvs : List (κ × ν)) (k : κ) :
    ∀ acc : List (κ × ν), k ∈ (foldSet acc kvs).map Prod.fst ↔
      k ∈ kvs.map Prod.fst ∨ k ∈ acc.map Prod.fst := by
  induction kvs with
  | nil => intro acc; simp [foldSet]
  | cons e rest ih =>
    intro acc
    have e1 : foldSet acc (e :: rest) = foldSet (entriesSet acc e.1 e.2) rest := rfl
    rw [e1, ih, mem_keys_entriesSet]
    simp only [List.map_cons, List.mem_cons]
    tauto

theorem nodup_keys_foldSet (kvs : List (κ × ν)) :
    ∀ acc : List (κ × ν), (acc.map Prod.fst).Nodup → ((foldSet acc kvs).map Prod.fst).Nodup := by
  induction kvs with
  | nil => intro acc h; exact h
  | cons e rest ih =>
    intro acc h
    have e1 : foldSet acc (e :: rest) = foldSet (entriesSet acc e.1 e.2) rest := rfl
    rw [e1]
    exact ih _ (nodup_keys_entriesSet acc e.1 e.2 h)

end Lookup

/-! ## Reading back a link map -/

theorem unmarshalLinkMembers_encoded (es : List (GoString × LinkStatus))
    (hval : ∀ e, e ∈ es → validUTF8 e.1 ∧ validUTF8 e.2) :
    ∀ acc, unmarshalLinkMembers acc
        (es.map (fun e => (coerceUTF8 e.1, Json.str (coerceUTF8 e.2)))) =
      some (foldSet acc es) := by
  induction es with
  | nil => intro acc; rfl
  | cons e rest ih =>
    intro acc
    obtain ⟨h1, h2⟩ := hval e (List.mem_cons_self e rest)
    unfold validUTF8 at h1 h2
    simp only [List.map_cons, unmarshalLinkMembers, unmarshalStatus, h1, h2]
    rw [ih (fun x hx => hval x (List.mem_cons_of_mem e hx))]
    rfl

theorem marshalLinks_alloc (es : List (GoString × LinkStatus)) :
    marshalLinks (GoMap.alloc es) =
      Json.obj ((sortByKey es).map (fun e => (coerceUTF8 e.1, Json.str (coerceUTF8 e.2)))) := by
  simp only [marshalLinks, writeMembers]
  rw [sortByKey_map (fun v => Json.str (coerceUTF8 v)) es, List.map_map]
  rfl

theorem unmarshalLinks_marshalLinks (m : GoMap GoString LinkStatus) (hnd : m.keys.Nodup)
    (hval : ∀ e, e ∈ m.entries → validUTF8 e.1 ∧ validUTF8 e.2) :
    ∃ m', unmarshalLinks GoMap.nil (marshalLinks m) = some m' ∧
      (∀ l, m'.get? l = m.get? l) ∧ m'.keys.Nodup ∧ (∀ l, l ∈ m'.keys ↔ l ∈ m.keys) := by
  cases m with
  | nil =>
    exact ⟨GoMap.nil, rfl, fun _ => rfl, hnd, fun _ => Iff.rfl⟩
  | alloc es =>
    have hperm : (sortByKey es).Perm es := sortByKey_perm es
    have hnd1 : (es.map Prod.fst).Nodup := hnd
    have hnd2 : ((sortByKey es).map Prod.fst).Nodup := (hperm.map Prod.fst).nodup_iff.2 hnd1
    have hval2 : ∀ e, e ∈ sortByKey es → validUTF8 e.1 ∧ validUTF8 e.2 :=
      fun e he => hval e (hperm.mem_iff.1 he)
    refine ⟨GoMap.alloc (foldSet [] (sortByKey es)), ?_, ?_, ?_, ?_⟩
    · rw [marshalLinks_alloc]
      simp only [unmarshalLinks, GoMap.entries,
        unmarshalLinkMembers_encoded (sortByKey es) hval2, Option.map]
    · intro l
      show entriesGet (foldSet [] (sortByKey es)) l = entriesGet es l
      rw [entriesGet_foldSet _ hnd2, entriesGet_perm _ _ hperm hnd2 l]
      cases entriesGet es l <;> rfl
    · exact nodup_keys_foldSet _ [] (by simp)
    · intro l
      show l ∈ (foldSet [] (sortByKey es)).map Prod.fst ↔ l ∈ es.map Prod.fst
      rw [keys_foldSet]
      simp only [List.map_nil, List.not_mem_nil, or_false]
      exact (hperm.map Prod.fst).mem_iff

/-! ## Reading back a task -/

theorem unmarshalTask_marshalTask (codec : TimeCodec)
    (hcodec : ∀ t str, codec.format t = some str → ∃ t', codec.parse str = some t')
    (p : Option Task) (hnd : ∀ t, p = some t → t.Links.keys.Nodup)
    (hval : ∀ t, p = some t → linksUTF8 t) (j : Json)
    (hj : marshalTask codec p = some j) :
    ∃ q, unmarshalTask codec j = some q ∧ sameTask p q := by
  cases p with
  | none =>
    simp only [marshalTask] at hj
    rw [← Option.some.inj hj]
    exact ⟨none, rfl, trivial⟩
  | some t =>
    cases hc : codec.format t.CreatedAt with
    | none => simp [marshalTask, hc] at hj
    | some c =>
      cases hu : codec.format t.UpdatedAt with
      | none => simp [marshalTask, hc, hu] at hj
      | some u =>
        simp only [marshalTask, hc, hu] at hj
        rw [← Option.some.inj hj]
        obtain ⟨c', hc'⟩ := hcodec _ _ hc
        obtain ⟨u', hu'⟩ := hcodec _ _ hu
        obtain ⟨m', hm', hget, _, _⟩ :=
          unmarshalLinks_marshalLinks t.Links (hnd t rfl) (hval t rfl)
        have f1 : fieldIs (lit "id") (lit "id") = true := by decide
        have f2 : fieldIs (lit "id") (lit "links") = false := by decide
        have f3 : fieldIs (lit "links") (lit "links") = true := by decide
        have f4 : fieldIs (lit "id") (lit "created_at") = false := by decide
        have f5 : fieldIs (lit "links") (lit "created_at") = false := by decide
        have f6 : fieldIs (lit "created_at") (lit "created_at") = true := by decide
        have f7 : fieldIs (lit "id") (lit "updated_at") = false := by decide
        have f8 : fieldIs (lit "links") (lit "updated_at") = false := by decide
        have f9 : fieldIs (lit "created_at") (lit "updated_at") = false := by decide
        have f10 : fieldIs (lit "updated_at") (lit "updated_at") = true := by decide
        refine ⟨some { ID := t.ID, Links := m', CreatedAt := c', UpdatedAt := u' }, ?_, ?_⟩
        · simp [unmarshalTask, unmarshalTaskFields, f1, f2, f3, f4, f5, f6, f7, f8, f9, f10,
            unmarshalInt, unmarshalTime, hm', hc', hu']
        · exact ⟨rfl, fun l => (hget l).symm⟩

/-! ## Reading back the task map -/

theorem marshalTaskEntries_eq (codec : TimeCodec) (es : List (Int × Option Task)) :
    ∀ ms, marshalTaskEntries codec es = some ms →
      ms = es.map (fun e => (formatInt e.1, (marshalTask codec e.2).getD Json.null)) ∧
      ∀ e, e ∈ es → ∃ j, marshalTask codec e.2 = some j := by
  induction es with
  | nil =>
    intro ms h
    simp only [marshalTaskEntries] at h
    exact ⟨(Option.some.inj h).symm, fun e he => absurd he (List.not_mem_nil e)⟩
  | cons a rest ih =>
    intro ms h
    obtain ⟨id, p⟩ := a
    cases hj : marshalTask codec p with
    | none => simp [marshalTaskEntries, hj] at h
    | some j =>
      cases hr : marshalTaskEntries codec rest with
      | none => simp [marshalTaskEntries, hj, hr] at h
      | some ms1 =>
        simp only [marshalTaskEntries, hj, hr] at h
        obtain ⟨e1, e2⟩ := ih ms1 hr
        refine ⟨?_, ?_⟩
        · rw [← Option.some.inj h, e1]
          simp [hj]
        · intro e he
          rcases List.mem_cons.1 he with h1 | h1
          · rw [h1]; exact ⟨j, hj⟩
          · exact e2 e h1

theorem unmarshalTaskMembers_encoded (codec : TimeCodec)
    (hcodec : ∀ t str, codec.format t = some str → ∃ t', codec.parse str = some t')
    (xs : List (GoString × (Int × Option Task))) :
    (∀ x, x ∈ xs → x.1 = formatInt x.2.1 ∧ (∃ j, marshalTask codec x.2.2 = some j) ∧
      (∀ t, x.2.2 = some t → t.Links.keys.Nodup) ∧ (∀ t, x.2.2 = some t → linksUTF8 t)) →
    ∀ acc, ∃ kvs : List (Int × Option Task),
      unmarshalTaskMembers codec acc
        (xs.map (fun x => (coerceUTF8 x.1, (marshalTask codec x.2.2).getD Json.null))) =
          some (foldSet acc kvs) ∧
      List.Forall₂ (fun x kv => kv.1 = x.2.1 ∧ sameTask x.2.2 kv.2) xs kvs := by
  induction xs with
  | nil =>
    intro _ acc
    exact ⟨[], rfl, List.Forall₂.nil⟩
  | cons x rest ih =>
    intro hx acc
    obtain ⟨hk, ⟨j, hj⟩, hnd, hval⟩ := hx x (List.mem_cons_self x rest)
    obtain ⟨q, hq, hsame⟩ := unmarshalTask_marshalTask codec hcodec x.2.2 hnd hval j hj
    obtain ⟨kvs, hkvs, hall⟩ :=
      ih (fun y hy => hx y (List.mem_cons_of_mem x hy)) (entriesSet acc x.2.1 q)
    refine ⟨(x.2.1, q) :: kvs, ?_, List.Forall₂.cons ⟨rfl, hsame⟩ hall⟩
    simp only [List.map_cons, unmarshalTaskMembers, hk, coerceUTF8_formatInt,
      parseInt_formatInt, hj, Option.getD_some, hq]
    exact hkvs

theorem sameSlot_of_forall₂ (xs : List (GoString × (Int × Option Task)))
    (kvs : List (Int × Option Task))
    (h : List.Forall₂ (fun x kv => kv.1 = x.2.1 ∧ sameTask x.2.2 kv.2) xs kvs) (id : Int) :
    sameSlot (entriesGet (xs.map Prod.snd) id) (entriesGet kvs id) ∧
    kvs.map Prod.fst = (xs.map Prod.snd).map Prod.fst := by
  induction h with
  | nil => exact ⟨trivial, rfl⟩
  | @cons x kv xs1 kvs1 hhead _ ih =>
    obtain ⟨hk, hs⟩ := hhead
    obtain ⟨ih1, ih2⟩ := ih
    obtain ⟨k, q⟩ := kv
    obtain ⟨str, k1, p⟩ := x
    simp only at hk hs
    subst hk
    refine ⟨?_, ?_⟩
    · simp only [List.map_cons, entriesGet]
      by_cases hid : k = id
      · rw [if_pos hid, if_pos hid]
        exact hs
      · rw [if_neg hid, if_neg hid]
        exact ih1
    · simp only [List.map_cons, ih2]

theorem unmarshalTasks_marshalTasks (codec : TimeCodec)
    (hcodec : ∀ t str, codec.format t = some str → ∃ t', codec.parse str = some t')
    (es : List (Int × Option Task)) (hnd : (es.map Prod.fst).Nodup)
    (hlinks : ∀ e, e ∈ es → ∀ t, e.2 = some t → t.Links.keys.Nodup)
    (hval : ∀ e, e ∈ es → ∀ t, e.2 = some t → linksUTF8 t)
    (j : Json) (hj : marshalTasks codec (GoMap.alloc es) = some j) :
    ∃ es', unmarshalTasks codec GoMap.nil j = some (GoMap.alloc es') ∧
      sameTasks (GoMap.alloc es) (GoMap.alloc es') ∧
      (∀ id, id ∈ es'.map Prod.fst ↔ id ∈ es.map Prod.fst) := by
  cases hms : marshalTaskEntries codec es with
  | none => simp [marshalTasks, hms] at hj
  | some ms =>
    simp only [marshalTasks, hms] at hj
    obtain ⟨hmseq, hjs⟩ := marshalTaskEntries_eq codec es ms hms
    have hl : ms = (es.map (fun e => (formatInt e.1, e))).map
        (fun x => (x.1, (fun y : Int × Option Task =>
          (marshalTask codec y.2).getD Json.null) x.2)) := by
      rw [hmseq, List.map_map]
      rfl
    have hsort := sortByKey_map
      (fun y : Int × Option Task => (marshalTask codec y.2).getD Json.null)
      (es.map (fun e => (formatInt e.1, e)))
    have hperm : (sortByKey (es.map (fun e => (formatInt e.1, e)))).Perm
        (es.map (fun e => (formatInt e.1, e))) := sortByKey_perm _
    have hperm2 : ((sortByKey (es.map (fun e => (formatInt e.1, e)))).map Prod.snd).Perm es := by
      have e0 : (es.map (fun e => (formatInt e.1, e))).map Prod.snd = es := by
        rw [List.map_map]
        have hid : (Prod.snd ∘ fun e : Int × Option Task => (formatInt e.1, e)) = id := rfl
        rw [hid, List.map_id]
      have := hperm.map Prod.snd
      rw [e0] at this
      exact this
    have hx : ∀ x, x ∈ sortByKey (es.map (fun e => (formatInt e.1, e))) →
        x.1 = formatInt x.2.1 ∧ (∃ j, marshalTask codec x.2.2 = some j) ∧
        (∀ t, x.2.2 = some t → t.Links.keys.Nodup) ∧
        (∀ t, x.2.2 = some t → linksUTF8 t) := by
      intro x hxm
      have hxm2 := hperm.mem_iff.1 hxm
      obtain ⟨e, he, hex⟩ := List.mem_map.1 hxm2
      subst hex
      exact ⟨rfl, hjs e he, hlinks e he, hval e he⟩
    obtain ⟨kvs, hkvs, hall⟩ := unmarshalTaskMembers_encoded codec hcodec _ hx []
    have hnd2 : (((sortByKey (es.map (fun e => (formatInt e.1, e)))).map Prod.snd).map
        Prod.fst).Nodup := (hperm2.map Prod.fst).nodup_iff.2 hnd
    have hkeys := (sameSlot_of_forall₂ _ kvs hall 0).2
    have hnd3 : (kvs.map Prod.fst).Nodup := by rw [hkeys]; exact hnd2
    refine ⟨foldSet [] kvs, ?_, ?_, ?_⟩
    · rw [← Option.some.inj hj, hl]
      simp only [unmarshalTasks, GoMap.entries, Option.map, writeMembers]
      rw [hsort, List.map_map]
      exact (congrArg (Option.map GoMap.alloc) hkvs).trans rfl
    · intro id
      show sameSlot (entriesGet es id) (entriesGet (foldSet [] kvs) id)
      rw [entriesGet_foldSet kvs hnd3 id []]
      have h1 := (sameSlot_of_forall₂ _ kvs hall id).1
      rw [entriesGet_perm _ _ hperm2 hnd2 id] at h1
      cases hg : entriesGet kvs id with
      | none =>
        rw [hg] at h1
        simpa [entriesGet] using h1
      | some q =>
        rw [hg] at h1
        exact h1
    · intro id
      rw [keys_foldSet, hkeys]
      simp only [List.map_nil, List.not_mem_nil, or_false]
      exact (hperm2.map Prod.fst).mem_iff
/-! ## SaveState, then RestoreState on a fresh store -/

theorem StoreInv_of_exec (ops : List Op) (s : Storage) (ids : List Int)
    (h : exec NewStorage ops = .ok (s, ids)) : StoreInv s := by
  obtain ⟨s2, ids2, he, hinv, _, _⟩ := exec_from_inv ops NewStorage StoreInv_NewStorage
  rw [he] at h
  injection h with h
  injection h with h1 h2
  rw [← h1]
  exact hinv

theorem RestoreState_of_marshal (codec : TimeCodec)
    (hcodec : ∀ t str, codec.format t = some str → ∃ t', codec.parse str = some t')
    (s : Storage) (hinv : StoreInv s) (hutf8 : StoreUTF8 s) (doc : Json)
    (hdoc : marshalState codec { Tasks := s.tasks, NextID := s.nextID } = some doc) :
    ∃ r, RestoreState codec NewStorage (FileState.document doc) = (r, none) ∧
      sameTasks s.tasks r.tasks ∧ (∀ id, id ∈ r.tasks.keys ↔ id ∈ s.tasks.keys) ∧
      r.nextID = s.nextID := by
  obtain ⟨⟨es, hes⟩, hnd, _, hp⟩ := hinv
  cases hjt : marshalTasks codec s.tasks with
  | none => simp [marshalState, hjt] at hdoc
  | some jt =>
    simp only [marshalState, hjt] at hdoc
    have hnd1 : (es.map Prod.fst).Nodup := by
      rw [hes] at hnd
      exact hnd
    have hlinks : ∀ e, e ∈ es → ∀ t, e.2 = some t → t.Links.keys.Nodup := by
      intro e he t ht
      have hg : s.tasks.get? e.1 = some (some t) := by
        rw [hes]
        show entriesGet es e.1 = some (some t)
        rw [entriesGet_eq_some_iff es hnd1, ← ht]
        exact he
      obtain ⟨t', ht', _, hn⟩ := hp e.1 (some t) hg
      rw [← Option.some.inj ht'] at hn
      exact hn
    have hval : ∀ e, e ∈ es → ∀ t, e.2 = some t → linksUTF8 t := by
      intro e he t ht
      apply hutf8 e _ t ht
      rw [hes]
      exact he
    rw [hes] at hjt
    obtain ⟨es', hun, hsame, hkeys⟩ :=
      unmarshalTasks_marshalTasks codec hcodec es hnd1 hlinks hval jt hjt
    have f1 : fieldIs (lit "tasks") (lit "tasks") = true := by decide
    have f2 : fieldIs (lit "tasks") (lit "next_id") = false := by decide
    have f3 : fieldIs (lit "next_id") (lit "next_id") = true := by decide
    refine ⟨{ NewStorage with tasks := GoMap.alloc es', nextID := s.nextID }, ?_, ?_, ?_, rfl⟩
    · rw [← Option.some.inj hdoc]
      simp [RestoreState, unmarshalState, unmarshalStateFields, f1, f2, f3, hun, unmarshalInt]
    · rw [hes]
      exact hsame
    · intro id
      rw [hes]
      exact hkeys id

/-- C7, as stated, fails: the store reached from `NewStorage` by `CreateTask`
with the single link whose only byte is FF is saved without error, and
`RestoreState` on a fresh store reads the snapshot without error, but the
restored task holds the link U+FFFD (bytes EF BF BD) and not the link FF: the
task maps do not agree link for link. -/
theorem roundtrip_changes_raw_link :
    exec NewStorage [Op.create [[0xFF]] 1 2] = .ok (rawLinkStore, [1]) ∧
    (SaveState sampleCodec rawLinkStore FileState.missing none).2.2 = none ∧
    RestoreState sampleCodec NewStorage
      (SaveState sampleCodec rawLinkStore FileState.missing none).2.1 =
        (rawLinkRestored, none) ∧
    linkStatus rawLinkStore 1 [0xFF] = some StatusProcessing ∧
    linkStatus rawLinkRestored 1 [0xFF] = none ∧
    linkStatus rawLinkRestored 1 [0xEF, 0xBF, 0xBD] = some StatusProcessing ∧
    ¬ sameTasks rawLinkStore.tasks rawLinkRestored.tasks := by
  refine ⟨rfl, rfl, rfl, rfl, rfl, rfl, ?_⟩
  intro h
  have h1 := h 1
  have h2 : (rawLinkStore.tasks.get? 1) = some (some
      { ID := 1, Links := GoMap.alloc [([0xFF], StatusProcessing)],
        CreatedAt := 1, UpdatedAt := 2 }) := rfl
  have h3 : (rawLinkRestored.tasks.get? 1) = some (some
      { ID := 1, Links := GoMap.alloc [([0xEF, 0xBF, 0xBD], StatusProcessing)],
        CreatedAt := 0, UpdatedAt := 0 }) := rfl
  rw [h2, h3] at h1
  have h4 := h1.2 [0xFF]
  revert h4
  decide

/-- C7, amended: for a store reached from `NewStorage` by `CreateTask` and
`UpdateLinkStatus` calls in which every link and every status is valid UTF-8,
`SaveState` leaves the store as it is, and when it succeeds, `RestoreState` on
a fresh store that reads the written snapshot returns no error and yields a
task map with the same ids, under each id a task with the same id, the same
links and the same statuses, and the same counter.  The time codec is assumed
to read back what it wrote. -/
theorem SaveState_RestoreState_roundtrip (codec : TimeCodec)
    (hcodec : ∀ t str, codec.format t = some str → ∃ t', codec.parse str = some t')
    (ops : List Op) (s : Storage) (ids : List Int)
    (hreach : exec NewStorage ops = .ok (s, ids)) (hutf8 : StoreUTF8 s)
    (disk : FileState) (writeFailure : Option FileState)
    (hsave : (SaveState codec s disk writeFailure).2.2 = none) :
    (SaveState codec s disk writeFailure).1 = s ∧
    ∃ r, RestoreState codec NewStorage (SaveState codec s disk writeFailure).2.1 = (r, none) ∧
      sameTasks s.tasks r.tasks ∧ (∀ id, id ∈ r.tasks.keys ↔ id ∈ s.tasks.keys) ∧
      r.nextID = s.nextID := by
  refine ⟨SaveState_store codec s disk writeFailure, ?_⟩
  have hinv := StoreInv_of_exec ops s ids hreach
  cases hdoc : marshalState codec { Tasks := s.tasks, NextID := s.nextID } with
  | none => simp [SaveState, hdoc] at hsave
  | some doc =>
    cases writeFailure with
    | some d => simp [SaveState, hdoc] at hsave
    | none =>
      have e : (SaveState codec s disk none).2.1 = FileState.document doc := by
        simp [SaveState, hdoc]
      rw [e]
      exact RestoreState_of_marshal codec hcodec s hinv hutf8 doc hdoc

/-! ## The theorems at sample values -/

theorem UpdateLinkStatus_miss_noop_witness :
    (sampleStore.tasks.get? 9 = none ∨
      ∃ task, sampleStore.tasks.get? 9 = some (some task) ∧
        task.Links.get? (lit "a") = none) ∧
    (sampleStore.tasks.get? 1 = none ∨
      ∃ task, sampleStore.tasks.get? 1 = some (some task) ∧
        task.Links.get? (lit "c") = none) ∧
    UpdateLinkStatus sampleStore 9 (lit "a") StatusAvailable 3 = .ok sampleStore ∧
    UpdateLinkStatus sampleStore 1 (lit "c") StatusAvailable 3 = .ok sampleStore :=
  ⟨Or.inl rfl, Or.inr ⟨sampleTask, rfl, rfl⟩,
    UpdateLinkStatus_miss_noop sampleStore 9 (lit "a") StatusAvailable 3 (Or.inl rfl),
    UpdateLinkStatus_miss_noop sampleStore 1 (lit "c") StatusAvailable 3
      (Or.inr ⟨sampleTask, rfl, rfl⟩)⟩

theorem UpdateLinkStatus_frame_witness :
    sampleStore.tasks.get? 1 = some (some sampleTask) ∧ lit "a" ∈ sampleTask.Links.keys ∧
    CreateTask NewStorage [lit "b", lit "a"] 1 2 = .ok (sampleTask, sampleStore) ∧
    exec sampleStore [Op.update 1 (lit "a") StatusAvailable 3] = .ok (sampleDone, []) ∧
    (∃ s1 task1, UpdateLinkStatus sampleStore 1 (lit "a") StatusAvailable 3 = .ok s1 ∧
      s1.tasks.get? 1 = some (some task1) ∧
      task1.Links.get? (lit "a") = some StatusAvailable ∧
      task1.Links.keys = sampleTask.Links.keys ∧
      (∀ l, l ≠ lit "a" → task1.Links.get? l = sampleTask.Links.get? l) ∧
      task1.ID = sampleTask.ID ∧ task1.CreatedAt = sampleTask.CreatedAt ∧
      task1.UpdatedAt = 3 ∧
      (∀ id, id ≠ 1 → s1.tasks.get? id = sampleStore.tasks.get? id) ∧
      s1.tasks.keys = sampleStore.tasks.keys ∧ s1.nextID = sampleStore.nextID) ∧
    (∃ task2, sampleDone.tasks.get? sampleTask.ID = some (some task2) ∧
      task2.Links.keys = sampleTask.Links.keys) :=
  ⟨rfl, by decide, rfl, rfl,
    UpdateLinkStatus_frame.1 sampleStore 1 (lit "a") StatusAvailable 3 sampleTask rfl
      (by decide),
    UpdateLinkStatus_frame.2 NewStorage sampleStore sampleDone [lit "b", lit "a"] 1 2
      sampleTask [Op.update 1 (lit "a") StatusAvailable 3] [] rfl rfl⟩

theorem link_status_writes_witness :
    linkStatus sampleDone 1 (lit "a") = some StatusAvailable ∧
    ((∀ links t1 t2 task s1, CreateTask sampleDone links t1 t2 = .ok (task, s1) →
      (1 : Int) ≠ sampleDone.nextID → linkStatus s1 1 (lit "a") = some StatusAvailable) ∧
    (∀ id l status now s1, UpdateLinkStatus sampleDone id l status now = .ok s1 →
      id ≠ 1 ∨ l ≠ lit "a" → linkStatus s1 1 (lit "a") = some StatusAvailable) ∧
    (∀ status now, ∃ s1, UpdateLinkStatus sampleDone 1 (lit "a") status now = .ok s1 ∧
      linkStatus s1 1 (lit "a") = some status) ∧
    (∀ net l, checkSingleLink net l ≠ StatusProcessing)) :=
  ⟨rfl, link_status_writes sampleDone 1 (lit "a") StatusAvailable rfl⟩

theorem SaveState_RestoreState_roundtrip_witness :
    (∀ t str, sampleCodec.format t = some str → ∃ t', sampleCodec.parse str = some t') ∧
    exec NewStorage [Op.create [lit "b", lit "a"] 1 2] = .ok (sampleStore, [1]) ∧
    StoreUTF8 sampleStore ∧
    (SaveState sampleCodec sampleStore FileState.missing none).2.2 = none ∧
    (SaveState sampleCodec sampleStore FileState.missing none).1 = sampleStore ∧
    ∃ r, RestoreState sampleCodec NewStorage
        (SaveState sampleCodec sampleStore FileState.missing none).2.1 = (r, none) ∧
      sameTasks sampleStore.tasks r.tasks ∧
      (∀ id, id ∈ r.tasks.keys ↔ id ∈ sampleStore.tasks.keys) ∧
      r.nextID = sampleStore.nextID :=
  ⟨fun _ _ _ => ⟨0, rfl⟩, rfl, by decide, rfl,
    SaveState_RestoreState_roundtrip sampleCodec (fun _ _ _ => ⟨0, rfl⟩)
      [Op.create [lit "b", lit "a"] 1 2] sampleStore [1] rfl (by decide)
      FileState.missing none rfl⟩

end LinkChecker
